import Mathlib

/-!
Verification of the task dependency-graph core of the task-master repository.

The repository's `src/` excerpt contains only the MCP tool glue
(`mcp-server/src/tools/remove-dependency.js`, `tools/fix-dependencies.js`,
`tools/parsePRD.js`, `core/task-master-core.js`); the graph-consistency core
(identifier resolver, task graph model, dependency validator, dependency
repairer, status consistency checker, mutation operations) is not part of the
excerpt.  Those components are therefore modelled from the specification
(spec.md sections 3, 4.1-4.6), as noted on each definition.  The exported
and imported names of `task-master-core.js` and the control flow of the
`remove_dependency` tool handler are embedded directly from the source.
-/

namespace TaskDeps

/-- Status string used by the completion invariant. -/
def doneS : String := "done"

/-- Status string for pending nodes, used in concrete test documents. -/
def pendingS : String := "pending"

/-- Modelled from the spec: raw dependency identifiers as they occur in a
document (spec section 3 and design note on loose/duck-typed identifiers):
either an integer or a string (numeric or composite).  The source file that
would define them is not in the excerpt. -/
inductive RawId where
  | num (n : Int)
  | str (s : String)
deriving DecidableEq

/-- Modelled from the spec: canonical node identity — a top-level task id, or
a composite subtask identity parent.local (spec section 3). -/
inductive NodeId where
  | task (t : Nat)
  | sub (p : Nat) (s : Nat)
deriving DecidableEq

/-- Whitespace recognised by identifier trimming. -/
def isSpaceC (c : Char) : Bool :=
  c == ' ' || c == '\t' || c == '\n' || c == '\r'

/-- Trim whitespace from both ends of a character list. -/
def trimChars (l : List Char) : List Char :=
  ((l.dropWhile isSpaceC).reverse.dropWhile isSpaceC).reverse

/-- Decimal digit test on characters. -/
def isDigitC (c : Char) : Bool :=
  decide ('0' ≤ c) && decide (c ≤ '9')

/-- Numeric value of a digit character. -/
def digitVal (c : Char) : Nat := c.toNat - 48

/-- Modelled from the spec: parse a nonempty all-digit character list as a
natural number; anything else is a parse failure (spec section 4.1: malformed
strings resolve to not-found rather than throwing). -/
def natFromChars (l : List Char) : Option Nat :=
  if l ≠ [] ∧ l.all isDigitC = true then
    some (l.foldl (fun a c => a * 10 + digitVal c) 0)
  else none

/-- Split a character list on the dot character (the pieces contain no dot,
and the number of pieces is one more than the number of dots). -/
def splitDot : List Char → List (List Char)
  | [] => [[]]
  | c :: rest =>
    if c = '.' then [] :: splitDot rest
    else
      match splitDot rest with
      | [] => [[c]]
      | p :: ps => (c :: p) :: ps

/-- Modelled from the spec, section 4.1 (Identifier Resolver): a trimmed
string containing exactly one dot parses as parent.subIndex; a string with no
dot parses as a plain task id; anything else (several dots, non-numeric
parts, negative numbers) parses to none. -/
def parseChars (l : List Char) : Option NodeId :=
  match splitDot l with
  | [a] => (natFromChars a).map NodeId.task
  | [a, b] =>
    match natFromChars a, natFromChars b with
    | some p, some s => some (NodeId.sub p s)
    | _, _ => none
  | _ => none

/-- Modelled from the spec, section 4.1: total parsing of a raw identifier.
Integers stand for task ids (negative integers cannot name a node); strings
are trimmed and parsed by parseChars.  The resolver is pure and never
throws: parsing is a total function into Option. -/
def parseRawId (r : RawId) : Option NodeId :=
  match r with
  | .num n => if 0 ≤ n then some (NodeId.task n.toNat) else none
  | .str s => parseChars (trimChars s.data)

/-- Modelled from the spec, section 3: a subtask with local id, status and
dependency list. -/
structure Subtask where
  sid : Nat
  status : String
  deps : List RawId
deriving DecidableEq

/-- Modelled from the spec, section 3: a task with id, status, dependency
list and subtasks.  (Titles play no role in the claims and are omitted.) -/
structure Task where
  tid : Nat
  status : String
  deps : List RawId
  subtasks : List Subtask
deriving DecidableEq

/-- Modelled from the spec, section 3: an in-memory task document. -/
structure Document where
  tasks : List Task
deriving DecidableEq

/-- A resolved node handle: its identity, dependency list and status. -/
structure Entry where
  nid : NodeId
  deps : List RawId
  status : String
deriving DecidableEq

/-- Modelled from the spec, section 4.2: look up a node by canonical
identity.  Task lookup scans tasks in order; subtask lookup first resolves
the parent then scans its subtasks. -/
def lookupEntry (d : Document) (nid : NodeId) : Option Entry :=
  match nid with
  | .task t =>
    (d.tasks.find? (fun tk => tk.tid == t)).map
      (fun tk => ⟨nid, tk.deps, tk.status⟩)
  | .sub p s =>
    (d.tasks.find? (fun tk => tk.tid == p)).bind
      (fun tk => (tk.subtasks.find? (fun st => st.sid == s)).map
        (fun st => ⟨nid, st.deps, st.status⟩))

/-- A canonical identity resolves when lookup succeeds. -/
def resolvesId (d : Document) (nid : NodeId) : Bool :=
  (lookupEntry d nid).isSome

/-- Dependency list of a node (empty for an absent node). -/
def depsOf (d : Document) (nid : NodeId) : List RawId :=
  ((lookupEntry d nid).map (fun e => e.deps)).getD []

/-- Status of a node, when it exists. -/
def statusOf (d : Document) (nid : NodeId) : Option String :=
  (lookupEntry d nid).map (fun e => e.status)

/-- Modelled from the spec, section 4.1: the Identifier Resolver.  A raw
identifier resolves when it parses and the parsed identity names an existing
node of the document; otherwise the result is not-found (none). -/
def resolveRaw (d : Document) (r : RawId) : Option NodeId :=
  match parseRawId r with
  | none => none
  | some nid => if resolvesId d nid then some nid else none

/-- Modelled from the spec, section 4.2: iteration over all nodes in
document order — each task followed by its subtasks, in listed order. -/
def allNodes (d : Document) : List Entry :=
  d.tasks.flatMap (fun tk =>
    (⟨NodeId.task tk.tid, tk.deps, tk.status⟩ : Entry) ::
      tk.subtasks.map (fun st => ⟨NodeId.sub tk.tid st.sid, st.deps, st.status⟩))

/-- Node identities in document order. -/
def allNodeIds (d : Document) : List NodeId :=
  (allNodes d).map (fun e => e.nid)

/-- Total number of dependency entries of the document. -/
def totalDeps (d : Document) : Nat :=
  ((allNodes d).map (fun e => e.deps.length)).sum

/-- Rebuild a document applying a dependency-list transformation to each
node (the transformation receives the node's canonical identity).  All the
repair phases and edge mutations are instances of this scheme; it never
changes the set of nodes or any status. -/
def mapSubDeps (f : NodeId → List RawId → List RawId) (ptid : Nat)
    (st : Subtask) : Subtask :=
  { st with deps := f (NodeId.sub ptid st.sid) st.deps }

/-- Apply a dependency-list transformation to one task and its subtasks. -/
def mapTaskDeps (f : NodeId → List RawId → List RawId) (tk : Task) : Task :=
  { tk with
    deps := f (NodeId.task tk.tid) tk.deps
    subtasks := tk.subtasks.map (mapSubDeps f tk.tid) }

def mapDeps (f : NodeId → List RawId → List RawId) (d : Document) : Document :=
  ⟨d.tasks.map (mapTaskDeps f)⟩

/-- Modelled from the spec, sections 4.2-4.3: resolved outgoing dependency
edges of a node, in listed order, excluding edges to nonexistent nodes and
self edges (both excluded from the graph used for cycle detection). -/
def succs (d : Document) (u : NodeId) : List NodeId :=
  ((depsOf d u).filterMap (fun r => resolveRaw d r)).filter (fun v => v ≠ u)

/-- Reachability (one or more edges) in the dependency graph restricted to
resolvable, non-self edges.  An edge u to v means u depends on v. -/
inductive Reach (d : Document) : NodeId → NodeId → Prop where
  | single {u v : NodeId} : v ∈ succs d u → Reach d u v
  | cons {u v w : NodeId} : v ∈ succs d u → Reach d v w → Reach d u w

/-- Acyclicity of the dependency graph restricted to resolvable edges. -/
def Acyclic (d : Document) : Prop := ∀ u : NodeId, ¬ Reach d u u

/-- Lists of reported cycles, each an ordered node sequence. -/
abbrev CycleList := List (List NodeId)

/-- Last element of the nonempty list x :: l. -/
def lastD (x : NodeId) (l : List NodeId) : NodeId :=
  match l with
  | [] => x
  | y :: ys => lastD y ys

/-- A sound reported cycle: nonempty, and the edge from its last node back
to its first node (the closing edge) is a real edge of the graph. -/
def CycSound (d : Document) (cyc : List NodeId) : Prop :=
  ∃ v t, cyc = v :: t ∧ v ∈ succs d (lastD v t)

/-- A reverse topological order: every successor of a node appears strictly
later in the list.  The black list produced by a cycle-free depth-first run
has this shape (nodes in order of finish time, most recent first). -/
def TopoList (d : Document) : List NodeId → Prop
  | [] => True
  | u :: rest => (∀ v ∈ succs d u, v ∈ rest) ∧ TopoList d rest

/-- The part of the list strictly after the first occurrence of u. -/
def afterFirst (l : List NodeId) (u : NodeId) : List NodeId :=
  (l.dropWhile (fun x => x ≠ u)).tail

/-- Every dependency identifier of every node resolves. -/
def NoDangling (d : Document) : Prop :=
  ∀ e ∈ allNodes d, ∀ r ∈ e.deps, (resolveRaw d r).isSome = true

/-- No node depends on itself. -/
def NoSelf (d : Document) : Prop :=
  ∀ e ∈ allNodes d, ∀ r ∈ e.deps, resolveRaw d r ≠ some e.nid

/-- No dependency list contains duplicate identifiers. -/
def NoDups (d : Document) : Prop :=
  ∀ e ∈ allNodes d, e.deps.Nodup

/-- Postcondition of exploring one node: the black list grows by fresh
non-stack nodes only, the node itself finishes black, a cycle-free
exploration extends a reverse topological order, every reported cycle is
sound, and nodup of the black list is preserved. -/
def VisitOutSpec (d : Document) (u : NodeId) (stack black : List NodeId)
    (out : List NodeId × CycleList) : Prop :=
  black <:+ out.1 ∧
  (∀ x ∈ out.1, x ∈ black ∨ (x ∉ stack ∧ x ∈ allNodeIds d)) ∧
  u ∈ out.1 ∧
  (out.2 = [] → TopoList d black → TopoList d out.1) ∧
  (∀ cyc ∈ out.2, CycSound d cyc) ∧
  (black.Nodup → out.1.Nodup)

/-- Postcondition of walking an edge list: like VisitOutSpec, and a
cycle-free walk lands every listed successor in the black list. -/
def EdgesOutSpec (d : Document) (vs stack black : List NodeId)
    (out : List NodeId × CycleList) : Prop :=
  black <:+ out.1 ∧
  (∀ x ∈ out.1, x ∈ black ∨ (x ∉ stack ∧ x ∈ allNodeIds d)) ∧
  (out.2 = [] → TopoList d black → TopoList d out.1 ∧ ∀ v ∈ vs, v ∈ out.1) ∧
  (∀ cyc ∈ out.2, CycSound d cyc) ∧
  (black.Nodup → out.1.Nodup)

/-- Postcondition of the root loop of the depth-first traversal. -/
def RootsOutSpec (d : Document) (roots black : List NodeId)
    (out : List NodeId × CycleList) : Prop :=
  black <:+ out.1 ∧
  (out.2 = [] → TopoList d black → TopoList d out.1 ∧ ∀ u ∈ roots, u ∈ out.1) ∧
  (∀ cyc ∈ out.2, CycSound d cyc) ∧
  (black.Nodup → out.1.Nodup)

/-- Postcondition of the reachability search exploring one node: a true
answer certifies a path to the target; a false answer leaves a visited set
that contains the node, is closed under successors away from the old
visited set, and avoids the target. -/
def ReachOutSpec (d : Document) (target u : NodeId) (vis : List NodeId)
    (out : Bool × List NodeId) : Prop :=
  (out.1 = true → u = target ∨ Reach d u target) ∧
  (out.1 = false →
    vis <:+ out.2 ∧ u ∈ out.2 ∧
    (∀ x ∈ out.2, x ∈ vis ∨
      (x ≠ target ∧ x ∈ allNodeIds d ∧ ∀ w ∈ succs d x, w ∈ out.2)) ∧
    (vis.Nodup → out.2.Nodup))

/-- Postcondition of the reachability search walking an edge list. -/
def ReachEdgesOutSpec (d : Document) (target : NodeId) (vs vis : List NodeId)
    (out : Bool × List NodeId) : Prop :=
  (out.1 = true → ∃ v ∈ vs, v = target ∨ Reach d v target) ∧
  (out.1 = false →
    vis <:+ out.2 ∧ (∀ v ∈ vs, v ∈ out.2) ∧
    (∀ x ∈ out.2, x ∈ vis ∨
      (x ≠ target ∧ x ∈ allNodeIds d ∧ ∀ w ∈ succs d x, w ∈ out.2)) ∧
    (vis.Nodup → out.2.Nodup))

/-- Modelled from the spec, section 4.3 (cycle detection algorithm): process
the successor list of the node currently on top of the traversal stack.  An
edge to a node on the stack reports the stack slice from that node's
position to the top as a cycle, in traversal order; an edge to a finished
(black) node is skipped; otherwise the exploration function rec descends.
The recursion over edges is structural, so runs on concrete documents
compute by reduction. -/
def visitEdges (st : List NodeId)
    (rec : NodeId → List NodeId → List NodeId × CycleList) :
    List NodeId → List NodeId → List NodeId × CycleList
  | [], black => (black, [])
  | v :: vs, black =>
    if v ∈ st then
      let p := visitEdges st rec vs black
      (p.1, st.dropWhile (fun x => x ≠ v) :: p.2)
    else if v ∈ black then
      visitEdges st rec vs black
    else
      let p1 := rec v black
      let p2 := visitEdges st rec vs p1.1
      (p2.1, p1.2 ++ p2.2)

/-- Modelled from the spec, section 4.3: depth-first exploration of one node
with gray nodes on the stack and black nodes accumulated; the node is pushed
on the stack, its edges are walked in listed order, and it turns black when
its exploration finishes.  The fuel argument bounds the nesting depth; the
driver supplies more fuel than there are nodes, so the zero case is never
reached on a real run. -/
def visit (d : Document) : Nat → NodeId → List NodeId → List NodeId →
    List NodeId × CycleList
  | 0, _, _, black => (black, [])
  | fuel + 1, u, stack, black =>
    let st := stack ++ [u]
    let p := visitEdges st (fun v bl => visit d fuel v st bl) (succs d u) black
    (u :: p.1, p.2)

/-- Modelled from the spec, section 4.3: run the depth-first traversal from
every node not yet visited, in document order, collecting reported cycles. -/
def dfsRoots (d : Document) (fuel : Nat) :
    List NodeId → List NodeId → List NodeId × CycleList
  | [], black => (black, [])
  | u :: us, black =>
    if u ∈ black then dfsRoots d fuel us black
    else
      let p := visit d fuel u [] black
      let q := dfsRoots d fuel us p.1
      (q.1, p.2 ++ q.2)

/-- Modelled from the spec, section 4.3: the cycle detector.  Traversal
starts from every node in document order; reported cycles are stack slices
in traversal order. -/
def detectCycles (d : Document) : CycleList :=
  (dfsRoots d ((allNodeIds d).length + 1) (allNodeIds d) []).2

/-- Modelled from the spec, section 4.6: edge-walking step of the localized
reachability search used by addDependency; rec descends into unvisited
successors, and the search stops as soon as the target is found. -/
def reachEdges (rec : NodeId → List NodeId → Bool × List NodeId) :
    List NodeId → List NodeId → Bool × List NodeId
  | [], vis => (false, vis)
  | v :: vs, vis =>
    if v ∈ vis then reachEdges rec vs vis
    else
      let p := rec v vis
      if p.1 then p else reachEdges rec vs p.2

/-- Modelled from the spec, section 4.6: depth-first search for the target
node along existing resolvable edges, with a visited set.  The fuel bounds
the nesting depth; the caller supplies more fuel than there are nodes. -/
def reachVisit (d : Document) (target : NodeId) : Nat → NodeId →
    List NodeId → Bool × List NodeId
  | 0, _, vis => (false, vis)
  | fuel + 1, u, vis =>
    if u = target then (true, vis)
    else reachEdges (fun v w => reachVisit d target fuel v w) (succs d u) (u :: vis)

/-- Modelled from the spec, section 4.6: can the start node reach the target
along existing edges (used to refuse edges that would close a cycle)? -/
def reachesB (d : Document) (start target : NodeId) : Bool :=
  (reachVisit d target ((allNodeIds d).length + 1) start []).1

/-- Modelled from the spec, section 4.3: a Finding reported by the
Dependency Validator, classified by kind. -/
inductive Finding where
  | dangling (node : NodeId) (badId : RawId)
  | selfRef (node : NodeId)
  | dup (node : NodeId) (id : RawId)
  | cycle (nodes : List NodeId)
  | premature (node : NodeId) (blockingId : NodeId)
deriving DecidableEq

/-- Structural findings are every kind except premature completion. -/
def isStructural (f : Finding) : Bool :=
  match f with
  | .premature _ _ => false
  | _ => true

/-- Modelled from the spec, section 4.3: walk one node's dependency list in
listed order, reporting a dangling reference for each identifier that does
not resolve, a self reference for each edge back to the node itself, and a
duplicate for each identifier already seen earlier in the list. -/
def depFindings (d : Document) (nid : NodeId) :
    List RawId → List RawId → List Finding
  | [], _ => []
  | r :: rest, seen =>
    let tail := depFindings d nid rest (r :: seen)
    let here : List Finding :=
      match resolveRaw d r with
      | none => [Finding.dangling nid r]
      | some m => if m = nid then [Finding.selfRef nid] else []
    let dupF : List Finding := if r ∈ seen then [Finding.dup nid r] else []
    here ++ dupF ++ tail

/-- Modelled from the spec, section 4.3: premature-completion findings of
one node: the node is done but a resolved dependency is not. -/
def prematureOfEntry (d : Document) (e : Entry) : List Finding :=
  if e.status == doneS then
    e.deps.filterMap (fun r =>
      match resolveRaw d r with
      | none => none
      | some m =>
        match statusOf d m with
        | none => none
        | some st => if st == doneS then none else some (Finding.premature e.nid m))
  else []

/-- All premature-completion findings, in document order. -/
def prematureFindings (d : Document) : List Finding :=
  (allNodes d).flatMap (fun e => prematureOfEntry d e)

/-- Structural per-node findings, in document order. -/
def nodeFindings (d : Document) : List Finding :=
  (allNodes d).flatMap (fun e => depFindings d e.nid e.deps [])

/-- Modelled from the spec, section 4.3: the Dependency Validator.  Per-node
findings in document order, then cycles from the detector, then
premature-completion findings.  A pure function of the document. -/
def validate (d : Document) : List Finding :=
  nodeFindings d ++ (detectCycles d).map Finding.cycle ++ prematureFindings d

/-- Modelled from the spec, sections 4.4 and 6: a change-log entry, one per
corrective action, as plain data (kind plus identifiers). -/
inductive ChangeEntry where
  | removedDangling (node : NodeId) (id : RawId)
  | removedSelf (node : NodeId) (id : RawId)
  | collapsedDup (node : NodeId) (id : RawId)
  | removedCycleEdge (fromNode : NodeId) (toNode : NodeId)
deriving DecidableEq

/-- Modelled from the spec, section 4.4 step 1: drop every dependency
identifier that does not resolve. -/
def removeDanglingDoc (d : Document) : Document :=
  mapDeps (fun _ l => l.filter (fun r => (resolveRaw d r).isSome)) d

/-- Change-log entries for the dangling-removal phase. -/
def danglingLog (d : Document) : List ChangeEntry :=
  (allNodes d).flatMap (fun e =>
    (e.deps.filter (fun r => !(resolveRaw d r).isSome)).map
      (fun r => ChangeEntry.removedDangling e.nid r))

/-- Modelled from the spec, section 4.4 step 2: drop every dependency that
resolves back to the node itself. -/
def removeSelfDoc (d : Document) : Document :=
  mapDeps (fun nid l => l.filter (fun r => !(resolveRaw d r == some nid))) d

/-- Change-log entries for the self-removal phase. -/
def selfLog (d : Document) : List ChangeEntry :=
  (allNodes d).flatMap (fun e =>
    (e.deps.filter (fun r => resolveRaw d r == some e.nid)).map
      (fun r => ChangeEntry.removedSelf e.nid r))

/-- Keep the first occurrence of each identifier, dropping later repeats. -/
def dedupAux : List RawId → List RawId → List RawId
  | [], _ => []
  | r :: rest, seen =>
    if r ∈ seen then dedupAux rest seen else r :: dedupAux rest (r :: seen)

/-- The repeated occurrences dropped by dedupAux, in encounter order. -/
def extrasAux : List RawId → List RawId → List RawId
  | [], _ => []
  | r :: rest, seen =>
    if r ∈ seen then r :: extrasAux rest seen else extrasAux rest (r :: seen)

/-- Modelled from the spec, section 4.4 step 3: collapse every duplicate
dependency to a single occurrence, keeping the first. -/
def dedupDoc (d : Document) : Document :=
  mapDeps (fun _ l => dedupAux l []) d

/-- Change-log entries for the duplicate-collapse phase. -/
def dupLog (d : Document) : List ChangeEntry :=
  (allNodes d).flatMap (fun e =>
    (extrasAux e.deps []).map (fun r => ChangeEntry.collapsedDup e.nid r))

/-- Remove the resolved edge u to v: drop every dependency identifier of u
that resolves to v. -/
def removeEdgeDoc (d : Document) (u v : NodeId) : Document :=
  mapDeps (fun nid l =>
    if nid = u then l.filter (fun r => !(resolveRaw d r == some v)) else l) d

/-- Modelled from the spec, section 4.4 step 4: repeatedly run cycle
detection and, for the first reported cycle, remove the edge from the last
node of the cycle back to the first (the edge closing the loop in traversal
order), until no cycle remains.  Each removal deletes at least one
dependency entry, so fuel exceeding the total dependency count suffices. -/
def breakCycles : Nat → Document → Document × List ChangeEntry
  | 0, d => (d, [])
  | fuel + 1, d =>
    match detectCycles d with
    | [] => (d, [])
    | cyc :: _ =>
      match cyc with
      | [] => (d, [])
      | v :: t =>
        let u := lastD v t
        let p := breakCycles fuel (removeEdgeDoc d u v)
        (p.1, ChangeEntry.removedCycleEdge u v :: p.2)

/-- Result of the Dependency Repairer: the corrected document, the ordered
change log of corrective actions, and the premature-completion findings
reported distinctly (spec section 4.4 step 5: they are not auto-repaired). -/
structure RepairResult where
  document : Document
  log : List ChangeEntry
  prematureReports : List Finding
deriving DecidableEq

/-- Modelled from the spec, section 4.4: the Dependency Repairer.  Phases in
fixed order: remove dangling references, remove self references, collapse
duplicates, break cycles one closing edge at a time; premature-completion
findings of the corrected document are reported, not repaired. -/
def repair (d : Document) : RepairResult :=
  let d1 := removeDanglingDoc d
  let l1 := danglingLog d
  let d2 := removeSelfDoc d1
  let l2 := selfLog d1
  let d3 := dedupDoc d2
  let l3 := dupLog d2
  let p := breakCycles (totalDeps d3 + 1) d3
  ⟨p.1, l1 ++ l2 ++ l3 ++ p.2, prematureFindings p.1⟩

/-- Modelled from the spec, sections 4.5-4.6: errors of the mutation
operations. -/
inductive MutErr where
  | nodeNotFound
  | invalidDependency
  | wouldCreateCycle
  | prematureCompletion
deriving DecidableEq

/-- Does the resolved edge from f to t already exist? -/
def hasEdge (d : Document) (f t : NodeId) : Bool :=
  (depsOf d f).any (fun r => resolveRaw d r == some t)

/-- Append a raw dependency to the node f. -/
def addEdgeDoc (d : Document) (f : NodeId) (r : RawId) : Document :=
  mapDeps (fun nid l => if nid = f then l ++ [r] else l) d

/-- Modelled from the spec, section 4.6: addDependency resolves both
identifiers (NodeNotFound when either fails), rejects self edges and
existing edges (InvalidDependency), rejects edges that would close a cycle —
detected by the localized reachability search from the target back to the
source (WouldCreateCycle) — and otherwise appends the edge.  Failures return
an error and no document, so the input document is left unmodified. -/
def addDependency (fromId toId : RawId) (d : Document) : Except MutErr Document :=
  match resolveRaw d fromId, resolveRaw d toId with
  | some f, some t =>
    if f = t then .error .invalidDependency
    else if hasEdge d f t then .error .invalidDependency
    else if reachesB d t f then .error .wouldCreateCycle
    else .ok (addEdgeDoc d f toId)
  | _, _ => .error .nodeNotFound

/-- Modelled from the spec, section 4.6: removeDependency resolves the
source identifier and fails with NodeNotFound when it does not resolve or
when the edge is absent (a nonexistent edge is reported, never silently
ignored); otherwise it removes exactly that edge.  Edge identity is taken at
the parsed-identifier level, so a listed edge can be removed even when its
target no longer exists. -/
def removeDependency (fromId toId : RawId) (d : Document) : Except MutErr Document :=
  match resolveRaw d fromId, parseRawId toId with
  | some f, some t =>
    if (depsOf d f).any (fun r => parseRawId r == some t) then
      .ok (mapDeps (fun nid l =>
        if nid = f then l.filter (fun r => !(parseRawId r == some t)) else l) d)
    else .error .nodeNotFound
  | _, _ => .error .nodeNotFound

/-- Modelled from the spec, section 4.5: true iff every resolved dependency
of the node has status done (unresolvable identifiers do not block). -/
def canComplete (nid : NodeId) (d : Document) : Bool :=
  (depsOf d nid).all (fun r =>
    match resolveRaw d r with
    | none => true
    | some m => statusOf d m == some doneS)

def setSubStatus (nid : NodeId) (st : String) (ptid : Nat) (sb : Subtask) : Subtask :=
  { sb with status := if NodeId.sub ptid sb.sid = nid then st else sb.status }

/-- Update the status fields of one task and its subtasks for the node nid. -/
def setTaskStatus (nid : NodeId) (st : String) (tk : Task) : Task :=
  { tk with
    status := if NodeId.task tk.tid = nid then st else tk.status
    subtasks := tk.subtasks.map (setSubStatus nid st tk.tid) }

/-- Set the status of one node (by canonical identity). -/
def setStatusDoc (d : Document) (nid : NodeId) (st : String) : Document :=
  ⟨d.tasks.map (setTaskStatus nid st)⟩

/-- Modelled from the spec, section 4.5: the set-status mutation.  Setting a
node to done while canComplete is false is rejected with a
PrematureCompletion-kind error unless the override flag is supplied; any
other status is set without invoking the check. -/
def setStatus (id : RawId) (st : String) (override : Bool) (d : Document) :
    Except MutErr Document :=
  match resolveRaw d id with
  | none => .error .nodeNotFound
  | some nid =>
    if st == doneS && !canComplete nid d && !override then
      .error .prematureCompletion
    else .ok (setStatusDoc d nid st)

/-! Concrete documents used by the example clauses of the claims. -/

/-- A pending task with no subtasks. -/
def mkTask (i : Nat) (ds : List RawId) : Task := ⟨i, pendingS, ds, []⟩

/-- Document with edges 1 to 2, 2 to 3 and 3 to 1 (a three-cycle). -/
def docCycle3 : Document :=
  ⟨[mkTask 1 [RawId.num 2], mkTask 2 [RawId.num 3], mkTask 3 [RawId.num 1]]⟩

/-- The three-cycle document after removal of the closing edge 3 to 1. -/
def docCycle3Fixed : Document :=
  ⟨[mkTask 1 [RawId.num 2], mkTask 2 [RawId.num 3], mkTask 3 []]⟩

/-- Document with edges 1 to 2 and 2 to 3 only (acyclic chain). -/
def docChain : Document :=
  ⟨[mkTask 1 [RawId.num 2], mkTask 2 [RawId.num 3], mkTask 3 []]⟩

/-- Document with unrelated tasks 5 and 6. -/
def doc56 : Document := ⟨[mkTask 5 [], mkTask 6 []]⟩

/-- Document 5, 6 after a successful addDependency of the edge 5 to 6. -/
def doc56After : Document := ⟨[mkTask 5 [RawId.num 6], mkTask 6 []]⟩

/-- Task A (id 1, pending) depends on task B (id 2, pending). -/
def docAB : Document := ⟨[mkTask 1 [RawId.num 2], mkTask 2 []]⟩

/-- Document whose only task carries a malformed dependency string. -/
def docMal : Document := ⟨[⟨1, pendingS, [RawId.str ("a.b")], []⟩]⟩

/-!
Embedding of `mcp-server/src/core/task-master-core.js` (in src/): its import,
export and lookup-map structure, at the level of exported names.
-/

/-- The six direct functions imported and re-exported by
task-master-core.js (source lines 8-13 and 19-26). -/
def directFunctionExports : List String :=
  ["listTasksDirect", "getCacheStatsDirect", "parsePRDDirect",
   "updateTasksDirect", "updateTaskByIdDirect", "updateSubtaskByIdDirect"]

/-- The utility re-export of task-master-core.js (source line 16). -/
def utilityReexports : List String := ["findTasksJsonPath"]

/-- The value exports of task-master-core.js (the directFunctions map,
source line 32). -/
def valueExports : List String := ["directFunctions"]

/-- Every name exported by task-master-core.js. -/
def taskMasterCoreExports : List String :=
  directFunctionExports ++ utilityReexports ++ valueExports

/-- The directFunctions lookup map of task-master-core.js (source lines
32-40): tool-facing key to direct implementation name. -/
def directFunctions : List (String × String) :=
  [("list", "listTasksDirect"),
   ("cacheStats", "getCacheStatsDirect"),
   ("parsePRD", "parsePRDDirect"),
   ("update", "updateTasksDirect"),
   ("updateTask", "updateTaskByIdDirect"),
   ("updateSubtask", "updateSubtaskByIdDirect")]

/-- Names the remove-dependency tool module imports from
task-master-core.js (tools/remove-dependency.js line 12). -/
def removeDependencyToolImports : List String := ["removeDependencyDirect"]

/-- Names the fix-dependencies tool module imports from
task-master-core.js (tools/fix-dependencies.js, import on its line 51 of the
combined excerpt). -/
def fixDependenciesToolImports : List String := ["fixDependenciesDirect"]

/-!
Embedding of the `remove_dependency` tool execute handler
(`mcp-server/src/tools/remove-dependency.js`, lines 39-98).  External
collaborators (session root lookup, tasks.json path resolution, the direct
function, handleApiResult) are abstracted as an environment whose fallible
calls either return a value or throw.
-/

/-- Outcome of one JavaScript call: a value, or a thrown error message. -/
inductive JsOut (α : Type) where
  | ok (a : α)
  | thrown (msg : String)

/-- Arguments of the remove_dependency tool (its zod parameter object). -/
structure RdArgs where
  id : String
  dependsOn : String
  file : Option String
  projectRoot : Option String

/-- Result object of a direct function: success flag and message. -/
structure DirectResult where
  success : Bool
  message : String
deriving DecidableEq

/-- A tool response: what createErrorResponse or handleApiResult build. -/
inductive Response where
  | success (msg : String)
  | error (msg : String)
deriving DecidableEq

/-- The createErrorResponse helper: wraps a message in an error response. -/
def createErrorResponse (msg : String) : Response := Response.error msg

/-- Environment of one execute invocation: the session project root (none
when the session yields no root), and the outcomes of the external calls. -/
structure RdEnv where
  sessionRoot : Option String
  findPath : String → JsOut String
  direct : String → JsOut DirectResult
  handleApi : DirectResult → JsOut Response

/-- Error text returned when no project root can be determined
(remove-dependency.js lines 55-57). -/
def noRootMsg : String :=
  "Could not determine project root. Please provide it explicitly or ensure your session contains valid root information."

/-- Error text returned when findTasksJsonPath throws
(remove-dependency.js lines 69-71). -/
def failedFindMsg (m : String) : String := "Failed to find tasks.json: " ++ m

/-- Marker recorded when removeDependencyDirect is invoked. -/
def directCallName : String := "removeDependencyDirect"

/-- Project root determination (remove-dependency.js lines 46-51): the
session root, falling back to the projectRoot argument. -/
def rootOf (sessionRoot argsRoot : Option String) : Option String :=
  match sessionRoot with
  | some r => some r
  | none => argsRoot

/-- The body of the execute handler inside its try block, returning the
produced response (or a propagating thrown error) together with the list of
removeDependencyDirect invocations made.  Control flow transcribed from
remove-dependency.js lines 40-93: root determination and early error return,
inner try around findTasksJsonPath converting its throw to an error
response, then the direct call and handleApiResult. -/
def rdExecuteBody (env : RdEnv) (args : RdArgs) : JsOut Response × List String :=
  match rootOf env.sessionRoot args.projectRoot with
  | none => (JsOut.ok (createErrorResponse noRootMsg), [])
  | some rf =>
    match env.findPath rf with
    | .thrown m => (JsOut.ok (createErrorResponse (failedFindMsg m)), [])
    | .ok path =>
      match env.direct path with
      | .thrown m => (JsOut.thrown m, [directCallName])
      | .ok res =>
        match env.handleApi res with
        | .thrown m => (JsOut.thrown m, [directCallName])
        | .ok resp => (JsOut.ok resp, [directCallName])

/-- The execute handler: the try body with the outer catch converting any
thrown error to createErrorResponse (remove-dependency.js lines 94-97). -/
def rdExecute (env : RdEnv) (args : RdArgs) : Response × List String :=
  match rdExecuteBody env args with
  | (.thrown m, calls) => (createErrorResponse m, calls)
  | (.ok r, calls) => (r, calls)

/-- A concrete environment whose session carries no project root. -/
def rdEnvNone : RdEnv :=
  ⟨none, fun _ => JsOut.ok ("path"), fun _ => JsOut.ok ⟨true, ("ok")⟩,
    fun r => JsOut.ok (Response.success r.message)⟩

/-- Concrete tool arguments with no projectRoot fallback. -/
def rdArgsNone : RdArgs := ⟨("1"), ("2"), none, none⟩

/-! ## Lookup and mapDeps infrastructure -/

theorem lookupEntry_nid {d : Document} {nid : NodeId} {e : Entry}
    (h : lookupEntry d nid = some e) : e.nid = nid := by
  cases nid with
  | task t =>
    simp only [lookupEntry, Option.map_eq_some'] at h
    obtain ⟨tk, -, rfl⟩ := h
    rfl
  | sub p s =>
    simp only [lookupEntry, Option.bind_eq_some, Option.map_eq_some'] at h
    obtain ⟨tk, -, st, -, rfl⟩ := h
    rfl

theorem find?_map_of_pred {α : Type} (g : α → α) (p : α → Bool)
    (hg : ∀ x, p (g x) = p x) (l : List α) :
    (l.map g).find? p = (l.find? p).map g := by
  induction l with
  | nil => rfl
  | cons a l ih =>
    cases h : p a with
    | true =>
      rw [List.map_cons, List.find?_cons_of_pos _ (by rw [hg]; exact h),
        List.find?_cons_of_pos _ h, Option.map_some']
    | false =>
      rw [List.map_cons, List.find?_cons_of_neg _ (by rw [hg]; simp [h]),
        List.find?_cons_of_neg _ (by simp [h]), ih]

theorem lookupEntry_mapDeps (f : NodeId → List RawId → List RawId)
    (d : Document) (nid : NodeId) :
    lookupEntry (mapDeps f d) nid =
      (lookupEntry d nid).map (fun e => ⟨e.nid, f e.nid e.deps, e.status⟩) := by
  cases nid with
  | task t =>
    simp only [lookupEntry, mapDeps]
    rw [find?_map_of_pred (mapTaskDeps f) (fun tk => tk.tid == t) (fun x => rfl)]
    cases hf : d.tasks.find? (fun tk => tk.tid == t) with
    | none => rfl
    | some tk =>
      have ht : tk.tid = t := by simpa using List.find?_some hf
      simp [ht, mapTaskDeps]
  | sub p s =>
    simp only [lookupEntry, mapDeps]
    rw [find?_map_of_pred (mapTaskDeps f) (fun tk => tk.tid == p) (fun x => rfl)]
    cases hf : d.tasks.find? (fun tk => tk.tid == p) with
    | none => rfl
    | some tk =>
      have ht : tk.tid = p := by simpa using List.find?_some hf
      simp only [Option.map_some', Option.some_bind, mapTaskDeps]
      rw [find?_map_of_pred (mapSubDeps f tk.tid) (fun st => st.sid == s) (fun x => rfl)]
      cases hs : tk.subtasks.find? (fun st => st.sid == s) with
      | none => rfl
      | some st =>
        have hst : st.sid = s := by simpa using List.find?_some hs
        simp [ht, hst, mapSubDeps]

theorem resolvesId_mapDeps (f : NodeId → List RawId → List RawId)
    (d : Document) (nid : NodeId) :
    resolvesId (mapDeps f d) nid = resolvesId d nid := by
  simp [resolvesId, lookupEntry_mapDeps]

theorem statusOf_mapDeps (f : NodeId → List RawId → List RawId)
    (d : Document) (nid : NodeId) :
    statusOf (mapDeps f d) nid = statusOf d nid := by
  rw [statusOf, statusOf, lookupEntry_mapDeps, Option.map_map]
  rfl

theorem resolveRaw_mapDeps (f : NodeId → List RawId → List RawId)
    (d : Document) (r : RawId) :
    resolveRaw (mapDeps f d) r = resolveRaw d r := by
  rw [resolveRaw, resolveRaw]
  cases parseRawId r with
  | none => rfl
  | some nid =>
    show (if resolvesId (mapDeps f d) nid = true then some nid else none) =
      (if resolvesId d nid = true then some nid else none)
    rw [resolvesId_mapDeps]

theorem depsOf_mapDeps_of_lookup {d : Document} {nid : NodeId} {e : Entry}
    (f : NodeId → List RawId → List RawId) (h : lookupEntry d nid = some e) :
    depsOf (mapDeps f d) nid = f nid e.deps := by
  rw [depsOf, lookupEntry_mapDeps, h]
  simp [lookupEntry_nid h]

theorem depsOf_mapDeps_of_none {d : Document} {nid : NodeId}
    (f : NodeId → List RawId → List RawId) (h : lookupEntry d nid = none) :
    depsOf (mapDeps f d) nid = [] := by
  rw [depsOf, lookupEntry_mapDeps, h]
  rfl

theorem allNodes_mapDeps (f : NodeId → List RawId → List RawId) (d : Document) :
    allNodes (mapDeps f d) =
      (allNodes d).map (fun e => ⟨e.nid, f e.nid e.deps, e.status⟩) := by
  simp only [allNodes, mapDeps, List.flatMap_map, List.map_flatMap]
  apply List.flatMap_congr
  intro tk _
  simp [Function.comp, List.map_map, mapTaskDeps, mapSubDeps]

theorem allNodeIds_mapDeps (f : NodeId → List RawId → List RawId) (d : Document) :
    allNodeIds (mapDeps f d) = allNodeIds d := by
  rw [allNodeIds, allNodeIds, allNodes_mapDeps, List.map_map]
  rfl

theorem totalDeps_mapDeps (f : NodeId → List RawId → List RawId) (d : Document) :
    totalDeps (mapDeps f d) =
      ((allNodes d).map (fun e => (f e.nid e.deps).length)).sum := by
  rw [totalDeps, allNodes_mapDeps, List.map_map]
  rfl

theorem lookupEntry_mem_allNodes {d : Document} {nid : NodeId} {e : Entry}
    (h : lookupEntry d nid = some e) : e ∈ allNodes d := by
  cases nid with
  | task t =>
    simp only [lookupEntry, Option.map_eq_some'] at h
    obtain ⟨tk, hf, rfl⟩ := h
    have htk : tk ∈ d.tasks := List.mem_of_find?_eq_some hf
    have ht : tk.tid = t := by simpa using List.find?_some hf
    simp only [allNodes, List.mem_flatMap]
    exact ⟨tk, htk, by simp [ht]⟩
  | sub p s =>
    simp only [lookupEntry, Option.bind_eq_some, Option.map_eq_some'] at h
    obtain ⟨tk, hf, st, hs, rfl⟩ := h
    have htk : tk ∈ d.tasks := List.mem_of_find?_eq_some hf
    have ht : tk.tid = p := by simpa using List.find?_some hf
    have hstm : st ∈ tk.subtasks := List.mem_of_find?_eq_some hs
    have hss : st.sid = s := by simpa using List.find?_some hs
    simp only [allNodes, List.mem_flatMap]
    refine ⟨tk, htk, List.mem_cons_of_mem _ ?_⟩
    simp only [List.mem_map]
    exact ⟨st, hstm, by simp [ht, hss]⟩

theorem resolves_mem_allNodeIds {d : Document} {nid : NodeId}
    (h : resolvesId d nid = true) : nid ∈ allNodeIds d := by
  rw [resolvesId] at h
  cases hl : lookupEntry d nid with
  | none => rw [hl] at h; exact absurd h (by simp)
  | some e =>
    have := lookupEntry_mem_allNodes hl
    have hn := lookupEntry_nid hl
    rw [allNodeIds]
    exact List.mem_map.mpr ⟨e, this, hn⟩

theorem resolveRaw_resolves {d : Document} {r : RawId} {v : NodeId}
    (h : resolveRaw d r = some v) : resolvesId d v = true := by
  rw [resolveRaw] at h
  cases hp : parseRawId r with
  | none => rw [hp] at h; exact absurd h (by simp)
  | some nid =>
    rw [hp] at h
    by_cases hres : resolvesId d nid = true
    · simp only [hres, if_true] at h
      cases h
      exact hres
    · simp only [Bool.not_eq_true] at hres
      simp [hres] at h

theorem mem_succs {d : Document} {u v : NodeId} :
    v ∈ succs d u ↔ (∃ r ∈ depsOf d u, resolveRaw d r = some v) ∧ v ≠ u := by
  simp [succs, List.mem_filter, List.mem_filterMap]

theorem succs_mem_allNodeIds {d : Document} {u v : NodeId}
    (h : v ∈ succs d u) : v ∈ allNodeIds d := by
  obtain ⟨⟨r, -, hr⟩, -⟩ := mem_succs.mp h
  exact resolves_mem_allNodeIds (resolveRaw_resolves hr)

theorem edge_src_mem_allNodeIds {d : Document} {u v : NodeId}
    (h : v ∈ succs d u) : u ∈ allNodeIds d := by
  obtain ⟨⟨r, hmem, -⟩, -⟩ := mem_succs.mp h
  rw [depsOf] at hmem
  cases hl : lookupEntry d u with
  | none => rw [hl] at hmem; simp at hmem
  | some e =>
    refine resolves_mem_allNodeIds ?_
    rw [resolvesId, hl]
    rfl

theorem listMapIdOfMem {α : Type} {l : List α} {f : α → α}
    (h : ∀ x ∈ l, f x = x) : l.map f = l := by
  induction l with
  | nil => rfl
  | cons a t ih =>
    rw [List.map_cons, h a (List.mem_cons_self a t),
      ih fun x hx => h x (List.mem_cons_of_mem a hx)]

theorem mapDeps_eq_self {f : NodeId → List RawId → List RawId} {d : Document}
    (h : ∀ e ∈ allNodes d, f e.nid e.deps = e.deps) : mapDeps f d = d := by
  rw [mapDeps]
  cases d with
  | mk tasks =>
    congr 1
    apply listMapIdOfMem
    intro tk htk
    have hhead : f (NodeId.task tk.tid) tk.deps = tk.deps := by
      refine h ⟨NodeId.task tk.tid, tk.deps, tk.status⟩ ?_
      simp only [allNodes, List.mem_flatMap]
      exact ⟨tk, htk, List.mem_cons_self _ _⟩
    have hsub : ∀ st ∈ tk.subtasks,
        f (NodeId.sub tk.tid st.sid) st.deps = st.deps := by
      intro st hst
      refine h ⟨NodeId.sub tk.tid st.sid, st.deps, st.status⟩ ?_
      simp only [allNodes, List.mem_flatMap]
      refine ⟨tk, htk, List.mem_cons_of_mem _ ?_⟩
      exact List.mem_map.mpr ⟨st, hst, rfl⟩
    cases tk with
    | mk tid status deps subtasks =>
      simp only [mapTaskDeps]
      have hmap : subtasks.map (mapSubDeps f tid) = subtasks := by
        apply listMapIdOfMem
        intro st hst
        cases st with
        | mk sid sstatus sdeps =>
          simp only [mapSubDeps]
          rw [show f (NodeId.sub tid sid) sdeps = sdeps from hsub _ hst]
      rw [show f (NodeId.task tid) deps = deps from hhead, hmap]

/-! ## Identifier parser lemmas -/

theorem splitDot_ne_nil (l : List Char) : splitDot l ≠ [] := by
  cases l with
  | nil => simp [splitDot]
  | cons c rest =>
    rw [splitDot]
    split
    · simp
    · split <;> simp

theorem mem_splitDot {x : Char} {l : List Char} (hx : x ∈ l) (hdot : x ≠ '.') :
    ∃ p ∈ splitDot l, x ∈ p := by
  induction l with
  | nil => cases hx
  | cons c rest ih =>
    rw [splitDot]
    by_cases hc : c = '.'
    · subst hc
      rw [if_pos rfl]
      rcases List.mem_cons.mp hx with rfl | hx'
      · exact absurd rfl hdot
      · obtain ⟨p, hp, hxp⟩ := ih hx'
        exact ⟨p, List.mem_cons_of_mem _ hp, hxp⟩
    · rw [if_neg hc]
      cases hs : splitDot rest with
      | nil => exact absurd hs (splitDot_ne_nil rest)
      | cons p ps =>
        rcases List.mem_cons.mp hx with rfl | hx'
        · exact ⟨x :: p, List.mem_cons_self _ _, List.mem_cons_self _ _⟩
        · obtain ⟨q, hq, hxq⟩ := ih hx'
          rw [hs] at hq
          rcases List.mem_cons.mp hq with rfl | hq'
          · exact ⟨c :: q, List.mem_cons_self _ _, List.mem_cons_of_mem _ hxq⟩
          · exact ⟨q, List.mem_cons_of_mem _ hq', hxq⟩

theorem natFromChars_none_of_bad {p : List Char} {c : Char} (hcp : c ∈ p)
    (hcd : isDigitC c = false) : natFromChars p = none := by
  rw [natFromChars]
  rw [if_neg]
  intro hcond
  have := List.all_eq_true.mp hcond.2 c hcp
  rw [hcd] at this
  cases this

theorem parseChars_none_of_bad {l : List Char}
    (h : ∃ c ∈ l, isDigitC c = false ∧ c ≠ '.') : parseChars l = none := by
  obtain ⟨c, hcl, hcd, hcdot⟩ := h
  obtain ⟨p, hp, hcp⟩ := mem_splitDot hcl hcdot
  cases hs : splitDot l with
  | nil => simp [parseChars, hs]
  | cons p0 ps =>
    rw [hs] at hp
    cases ps with
    | nil =>
      have hpp : p = p0 := by simpa using hp
      subst hpp
      have hn := natFromChars_none_of_bad hcp hcd
      simp [parseChars, hs, hn]
    | cons p1 ps2 =>
      cases ps2 with
      | nil =>
        rcases List.mem_cons.mp hp with rfl | hp1
        · have hn := natFromChars_none_of_bad hcp hcd
          simp [parseChars, hs, hn]
        · have hpp : p = p1 := by simpa using hp1
          subst hpp
          have hn := natFromChars_none_of_bad hcp hcd
          cases h0 : natFromChars p0 <;> simp [parseChars, hs, h0, hn]
      | cons p2 ps3 => simp [parseChars, hs]

theorem splitDot_length (l : List Char) :
    (splitDot l).length = l.count ('.' : Char) + 1 := by
  induction l with
  | nil => simp [splitDot]
  | cons c rest ih =>
    rw [splitDot]
    by_cases hc : c = '.'
    · subst hc
      rw [if_pos rfl]
      simp only [List.length_cons, List.count_cons, ih]
      simp
    · rw [if_neg hc]
      cases hs : splitDot rest with
      | nil => exact absurd hs (splitDot_ne_nil rest)
      | cons p ps =>
        have hih := ih
        rw [hs] at hih
        simp only [List.length_cons, List.count_cons] at hih ⊢
        have hb : (c == ('.' : Char)) = false := beq_eq_false_iff_ne.mpr hc
        rw [hb]
        simpa using hih

theorem parseChars_none_of_dots {l : List Char}
    (h : 2 ≤ l.count ('.' : Char)) : parseChars l = none := by
  have hlen : 3 ≤ (splitDot l).length := by rw [splitDot_length]; omega
  cases hs : splitDot l with
  | nil => simp [parseChars, hs]
  | cons p0 ps =>
    cases ps with
    | nil => rw [hs] at hlen; simp at hlen
    | cons p1 ps2 =>
      cases ps2 with
      | nil => rw [hs] at hlen; simp at hlen
      | cons p2 ps3 => simp [parseChars, hs]

theorem parseRawId_str_none_of_bad (s : String)
    (h : (∃ c ∈ trimChars s.data, isDigitC c = false ∧ c ≠ '.') ∨
         2 ≤ (trimChars s.data).count ('.' : Char)) :
    parseRawId (RawId.str s) = none := by
  rw [parseRawId]
  rcases h with h | h
  · exact parseChars_none_of_bad h
  · exact parseChars_none_of_dots h

theorem resolveRaw_none_of_parse {d : Document} {r : RawId}
    (h : parseRawId r = none) : resolveRaw d r = none := by
  rw [resolveRaw, h]

theorem parseRawId_num_neg {n : Int} (h : n < 0) :
    parseRawId (RawId.num n) = none := by
  rw [parseRawId, if_neg]
  omega

theorem resolveRaw_total (d : Document) (r : RawId) :
    resolveRaw d r = none ∨
      ∃ nid, resolveRaw d r = some nid ∧ resolvesId d nid = true := by
  rw [resolveRaw]
  cases parseRawId r with
  | none => exact Or.inl rfl
  | some nid =>
    by_cases h : resolvesId d nid = true
    · refine Or.inr ⟨nid, ?_, h⟩
      show (if resolvesId d nid = true then some nid else none) = some nid
      rw [if_pos h]
    · refine Or.inl ?_
      show (if resolvesId d nid = true then some nid else none) = none
      rw [if_neg h]

theorem depFindings_dangling_mem {d : Document} {nid : NodeId}
    {deps : List RawId} {r : RawId} (hr : r ∈ deps)
    (hres : resolveRaw d r = none) :
    ∀ seen : List RawId, Finding.dangling nid r ∈ depFindings d nid deps seen := by
  induction deps with
  | nil => cases hr
  | cons a rest ih =>
    intro seen
    simp only [depFindings]
    rcases List.mem_cons.mp hr with rfl | hr'
    · rw [hres]
      simp
    · simp only [List.mem_append]
      exact Or.inr (ih hr' (a :: seen))

/-! ## Depth-first traversal: unfolding equations -/

theorem visitEdges_cons_stack {st : List NodeId}
    {rec : NodeId → List NodeId → List NodeId × CycleList}
    {v : NodeId} {vs black : List NodeId} (h : v ∈ st) :
    visitEdges st rec (v :: vs) black =
      ((visitEdges st rec vs black).1,
        st.dropWhile (fun x => x ≠ v) :: (visitEdges st rec vs black).2) := by
  rw [visitEdges, if_pos h]

theorem visitEdges_cons_black {st : List NodeId}
    {rec : NodeId → List NodeId → List NodeId × CycleList}
    {v : NodeId} {vs black : List NodeId} (h1 : v ∉ st) (h2 : v ∈ black) :
    visitEdges st rec (v :: vs) black = visitEdges st rec vs black := by
  rw [visitEdges, if_neg h1, if_pos h2]

theorem visitEdges_cons_fresh {st : List NodeId}
    {rec : NodeId → List NodeId → List NodeId × CycleList}
    {v : NodeId} {vs black : List NodeId} (h1 : v ∉ st) (h2 : v ∉ black) :
    visitEdges st rec (v :: vs) black =
      ((visitEdges st rec vs (rec v black).1).1,
        (rec v black).2 ++ (visitEdges st rec vs (rec v black).1).2) := by
  rw [visitEdges, if_neg h1, if_neg h2]

theorem visit_succ_eq {d : Document} {fuel : Nat} {u : NodeId}
    {stack black : List NodeId} :
    visit d (fuel + 1) u stack black =
      ((visitEdges (stack ++ [u]) (fun v bl => visit d fuel v (stack ++ [u]) bl)
          (succs d u) black).1.cons u,
        (visitEdges (stack ++ [u]) (fun v bl => visit d fuel v (stack ++ [u]) bl)
          (succs d u) black).2) := by
  rw [visit]

theorem dfsRoots_cons_black {d : Document} {fuel : Nat} {u : NodeId}
    {us black : List NodeId} (h : u ∈ black) :
    dfsRoots d fuel (u :: us) black = dfsRoots d fuel us black := by
  rw [dfsRoots, if_pos h]

theorem dfsRoots_cons_fresh {d : Document} {fuel : Nat} {u : NodeId}
    {us black : List NodeId} (h : u ∉ black) :
    dfsRoots d fuel (u :: us) black =
      ((dfsRoots d fuel us (visit d fuel u [] black).1).1,
        (visit d fuel u [] black).2 ++
          (dfsRoots d fuel us (visit d fuel u [] black).1).2) := by
  rw [dfsRoots, if_neg h]

/-! ## Depth-first traversal: stack-slice facts -/

theorem dropWhile_ne_eq_cons {v : NodeId} {l : List NodeId} (h : v ∈ l) :
    ∃ t, l.dropWhile (fun x => x ≠ v) = v :: t ∧ (v :: t) <:+ l := by
  induction l with
  | nil => cases h
  | cons a rest ih =>
    by_cases ha : a = v
    · subst ha
      refine ⟨rest, ?_, List.suffix_refl _⟩
      rw [List.dropWhile_cons, if_neg (by simp)]
    · have hv : v ∈ rest := by
        rcases List.mem_cons.mp h with h1 | h1
        · exact absurd h1.symm ha
        · exact h1
      obtain ⟨t, ht, hsuf⟩ := ih hv
      refine ⟨t, ?_, hsuf.trans (List.suffix_cons a rest)⟩
      rw [List.dropWhile_cons, if_pos (by simp [ha]), ht]

theorem lastD_concat (t : List NodeId) (x y : NodeId) :
    lastD x (t ++ [y]) = y := by
  induction t generalizing x with
  | nil => rfl
  | cons a as ih => exact ih a

theorem suffix_lastD {v : NodeId} {t s₀ : List NodeId} {u₀ : NodeId}
    (h : (v :: t) <:+ (s₀ ++ [u₀])) : lastD v t = u₀ := by
  obtain ⟨pre, hpre⟩ := h
  rcases List.eq_nil_or_concat t with rfl | ⟨t2, y, rfl⟩
  · have : (pre ++ [v]).getLast? = (s₀ ++ [u₀]).getLast? := by rw [hpre]
    rw [List.getLast?_concat, List.getLast?_concat] at this
    simpa [lastD] using this
  · simp only [List.concat_eq_append] at hpre ⊢
    rw [lastD_concat]
    have hassoc : pre ++ v :: (t2 ++ [y]) = (pre ++ v :: t2) ++ [y] := by simp
    rw [hassoc] at hpre
    have : ((pre ++ v :: t2) ++ [y]).getLast? = (s₀ ++ [u₀]).getLast? := by rw [hpre]
    rw [List.getLast?_concat, List.getLast?_concat] at this
    simpa using this

theorem topoList_cons {d : Document} {a : NodeId} {rest : List NodeId} :
    TopoList d (a :: rest) ↔ (∀ v ∈ succs d a, v ∈ rest) ∧ TopoList d rest :=
  Iff.rfl

/-! ## Depth-first traversal: the edge-walk specification -/

theorem visitEdges_spec (d : Document) (s₀ : List NodeId) (u₀ : NodeId)
    (rec : NodeId → List NodeId → List NodeId × CycleList)
    (hrec : ∀ v bl, v ∈ succs d u₀ → v ∉ s₀ ++ [u₀] → v ∉ bl →
      VisitOutSpec d v (s₀ ++ [u₀]) bl (rec v bl)) :
    ∀ (vs black : List NodeId), (∀ v ∈ vs, v ∈ succs d u₀) →
      EdgesOutSpec d vs (s₀ ++ [u₀]) black
        (visitEdges (s₀ ++ [u₀]) rec vs black) := by
  intro vs
  induction vs with
  | nil =>
    intro black _
    refine ⟨List.suffix_refl _, fun x hx => Or.inl hx, ?_, ?_, id⟩
    · exact fun _ ht => ⟨ht, fun v hv => absurd hv (List.not_mem_nil v)⟩
    · intro cyc hc
      simp [visitEdges] at hc
  | cons v vs ih =>
    intro black hvs
    by_cases hvst : v ∈ s₀ ++ [u₀]
    · rw [visitEdges_cons_stack hvst]
      obtain ⟨e1, e2, e3, e4, e5⟩ :=
        ih black (fun w hw => hvs w (List.mem_cons_of_mem _ hw))
      refine ⟨e1, e2, ?_, ?_, e5⟩
      · intro hcyc
        simp at hcyc
      · intro cyc hc
        rcases List.mem_cons.mp hc with rfl | hc'
        · obtain ⟨t, hdw, hsuf⟩ := dropWhile_ne_eq_cons hvst
          refine ⟨v, t, hdw, ?_⟩
          rw [suffix_lastD hsuf]
          exact hvs v (List.mem_cons_self _ _)
        · exact e4 cyc hc'
    · by_cases hvb : v ∈ black
      · rw [visitEdges_cons_black hvst hvb]
        obtain ⟨e1, e2, e3, e4, e5⟩ :=
          ih black (fun w hw => hvs w (List.mem_cons_of_mem _ hw))
        refine ⟨e1, e2, ?_, e4, e5⟩
        intro hcyc htopo
        obtain ⟨ht, hall⟩ := e3 hcyc htopo
        refine ⟨ht, ?_⟩
        intro w hw
        rcases List.mem_cons.mp hw with rfl | hw'
        · exact e1.subset hvb
        · exact hall w hw'
      · rw [visitEdges_cons_fresh hvst hvb]
        obtain ⟨v1, v2, v3, v4, v5, v6⟩ :=
          hrec v black (hvs v (List.mem_cons_self _ _)) hvst hvb
        obtain ⟨e1, e2, e3, e4, e5⟩ :=
          ih (rec v black).1 (fun w hw => hvs w (List.mem_cons_of_mem _ hw))
        refine ⟨v1.trans e1, ?_, ?_, ?_, fun hb => e5 (v6 hb)⟩
        · intro x hx
          rcases e2 x hx with h | h
          · rcases v2 x h with h' | h'
            · exact Or.inl h'
            · exact Or.inr h'
          · exact Or.inr h
        · intro hcyc htopo
          have hv2 : (rec v black).2 = [] := by
            rcases List.append_eq_nil.mp hcyc with ⟨h1, -⟩
            exact h1
          have he2 : (visitEdges (s₀ ++ [u₀]) rec vs (rec v black).1).2 = [] := by
            rcases List.append_eq_nil.mp hcyc with ⟨-, h2⟩
            exact h2
          obtain ⟨ht, hall⟩ := e3 he2 (v4 hv2 htopo)
          refine ⟨ht, ?_⟩
          intro w hw
          rcases List.mem_cons.mp hw with rfl | hw'
          · exact e1.subset v3
          · exact hall w hw'
        · intro cyc hc
          rcases List.mem_append.mp hc with h | h
          · exact v5 cyc h
          · exact e4 cyc h

/-! ## Depth-first traversal: node exploration and root loop -/

theorem visit_spec (d : Document) :
    ∀ (fuel : Nat) (u : NodeId) (stack black : List NodeId),
      (allNodeIds d).length + 1 ≤ fuel + stack.length →
      stack.Nodup → (∀ x ∈ stack, x ∈ allNodeIds d) →
      u ∉ stack → u ∈ allNodeIds d → u ∉ black →
      VisitOutSpec d u stack black (visit d fuel u stack black) := by
  intro fuel
  induction fuel with
  | zero =>
    intro u stack black h1 h2 h3 _ _ _
    exfalso
    have : stack.length ≤ (allNodeIds d).length := (h2.subperm h3).length_le
    omega
  | succ fuel ih =>
    intro u stack black h1 h2 h3 h4 h5 h6
    rw [visit_succ_eq]
    have hstnodup : (stack ++ [u]).Nodup := by
      rw [List.nodup_append]
      refine ⟨h2, List.nodup_singleton u, ?_⟩
      intro x hx hxu
      rw [List.mem_singleton] at hxu
      subst hxu
      exact h4 hx
    have hstsub : ∀ x ∈ stack ++ [u], x ∈ allNodeIds d := by
      intro x hx
      rcases List.mem_append.mp hx with h | h
      · exact h3 _ h
      · rw [List.mem_singleton] at h
        subst h
        exact h5
    have hlen : (allNodeIds d).length + 1 ≤ fuel + (stack ++ [u]).length := by
      simp only [List.length_append, List.length_singleton]
      omega
    have hrec : ∀ v bl, v ∈ succs d u → v ∉ stack ++ [u] → v ∉ bl →
        VisitOutSpec d v (stack ++ [u]) bl (visit d fuel v (stack ++ [u]) bl) :=
      fun v bl hv hvs hvb =>
        ih v (stack ++ [u]) bl hlen hstnodup hstsub hvs (succs_mem_allNodeIds hv) hvb
    obtain ⟨e1, e2, e3, e4, e5⟩ :=
      visitEdges_spec d stack u (fun v bl => visit d fuel v (stack ++ [u]) bl) hrec
        (succs d u) black (fun v hv => hv)
    refine ⟨e1.trans (List.suffix_cons u _), ?_, List.mem_cons_self _ _, ?_, e4, ?_⟩
    · intro x hx
      rcases List.mem_cons.mp hx with rfl | hx'
      · exact Or.inr ⟨h4, h5⟩
      · rcases e2 x hx' with h | ⟨hns, hmem⟩
        · exact Or.inl h
        · exact Or.inr ⟨fun hc => hns (List.mem_append.mpr (Or.inl hc)), hmem⟩
    · intro hcyc htopo
      obtain ⟨ht1, ht2⟩ := e3 hcyc htopo
      exact topoList_cons.mpr ⟨ht2, ht1⟩
    · intro hb
      have hp := e5 hb
      have hu : u ∉ (visitEdges (stack ++ [u])
          (fun v bl => visit d fuel v (stack ++ [u]) bl) (succs d u) black).1 := by
        intro hmem
        rcases e2 u hmem with h | ⟨hns, -⟩
        · exact h6 h
        · exact hns (List.mem_append.mpr (Or.inr (List.mem_singleton.mpr rfl)))
      exact List.nodup_cons.mpr ⟨hu, hp⟩

theorem dfsRoots_spec (d : Document) :
    ∀ (roots black : List NodeId), (∀ u ∈ roots, u ∈ allNodeIds d) →
      RootsOutSpec d roots black
        (dfsRoots d ((allNodeIds d).length + 1) roots black) := by
  intro roots
  induction roots with
  | nil =>
    intro black _
    refine ⟨List.suffix_refl _, ?_, ?_, id⟩
    · exact fun _ ht => ⟨ht, fun v hv => absurd hv (List.not_mem_nil v)⟩
    · intro cyc hc
      simp [dfsRoots] at hc
  | cons u us ih =>
    intro black hroots
    by_cases hub : u ∈ black
    · rw [dfsRoots_cons_black hub]
      obtain ⟨e1, e2, e3, e4⟩ :=
        ih black (fun w hw => hroots w (List.mem_cons_of_mem _ hw))
      refine ⟨e1, ?_, e3, e4⟩
      intro hcyc htopo
      obtain ⟨ht, hall⟩ := e2 hcyc htopo
      refine ⟨ht, ?_⟩
      intro w hw
      rcases List.mem_cons.mp hw with rfl | hw'
      · exact e1.subset hub
      · exact hall w hw'
    · rw [dfsRoots_cons_fresh hub]
      obtain ⟨v1, v2, v3, v4, v5, v6⟩ :=
        visit_spec d ((allNodeIds d).length + 1) u [] black (by simp)
          List.nodup_nil (by simp) (List.not_mem_nil u)
          (hroots u (List.mem_cons_self _ _)) hub
      obtain ⟨e1, e2, e3, e4⟩ :=
        ih (visit d ((allNodeIds d).length + 1) u [] black).1
          (fun w hw => hroots w (List.mem_cons_of_mem _ hw))
      refine ⟨v1.trans e1, ?_, ?_, fun hb => e4 (v6 hb)⟩
      · intro hcyc htopo
        have hv2 : (visit d ((allNodeIds d).length + 1) u [] black).2 = [] :=
          (List.append_eq_nil.mp hcyc).1
        have he2 : (dfsRoots d ((allNodeIds d).length + 1) us
            (visit d ((allNodeIds d).length + 1) u [] black).1).2 = [] :=
          (List.append_eq_nil.mp hcyc).2
        obtain ⟨ht, hall⟩ := e2 he2 (v4 hv2 htopo)
        refine ⟨ht, ?_⟩
        intro w hw
        rcases List.mem_cons.mp hw with rfl | hw'
        · exact e1.subset v3
        · exact hall w hw'
      · intro cyc hc
        rcases List.mem_append.mp hc with h | h
        · exact v5 cyc h
        · exact e3 cyc h

/-! ## Cycle detector: soundness and completeness -/

theorem detectCycles_sound (d : Document) :
    ∀ cyc ∈ detectCycles d, CycSound d cyc := by
  have hs := dfsRoots_spec d (allNodeIds d) [] (fun u hu => hu)
  exact hs.2.2.1

theorem detectCycles_empty_topo (d : Document) (h : detectCycles d = []) :
    ∃ l, TopoList d l ∧ (∀ x ∈ allNodeIds d, x ∈ l) ∧ l.Nodup := by
  obtain ⟨e1, e2, e3, e4⟩ := dfsRoots_spec d (allNodeIds d) [] (fun u hu => hu)
  have htriv : TopoList d [] := trivial
  obtain ⟨ht, hall⟩ := e2 h htriv
  exact ⟨_, ht, hall, e4 List.nodup_nil⟩

theorem topoList_suffix {d : Document} {l l₂ : List NodeId}
    (ht : TopoList d l) (hs : l₂ <:+ l) : TopoList d l₂ := by
  induction l with
  | nil =>
    rw [List.suffix_nil.mp hs]
    trivial
  | cons a rest ih =>
    rcases List.suffix_cons_iff.mp hs with rfl | hs'
    · exact ht
    · exact ih (topoList_cons.mp ht).2 hs'

theorem mem_afterFirst_edge {d : Document} {l : List NodeId} {u v : NodeId}
    (ht : TopoList d l) (hu : u ∈ l) (hv : v ∈ succs d u) :
    v ∈ afterFirst l u := by
  obtain ⟨t, hdw, hsuf⟩ := dropWhile_ne_eq_cons hu
  have h2 : TopoList d (u :: t) := topoList_suffix ht hsuf
  rw [afterFirst, hdw]
  exact (topoList_cons.mp h2).1 v hv

theorem afterFirst_subset {l : List NodeId} {u : NodeId} :
    afterFirst l u ⊆ l := by
  rw [afterFirst]
  intro x hx
  have h1 : x ∈ l.dropWhile (fun y => y ≠ u) :=
    (List.tail_sublist _).subset hx
  exact (List.dropWhile_sublist _).subset h1

theorem mem_afterFirst_reach {d : Document} {u w : NodeId} (hr : Reach d u w) :
    ∀ {l : List NodeId}, TopoList d l → u ∈ l → w ∈ afterFirst l u := by
  induction hr with
  | @single a b h =>
    intro l ht ha
    exact mem_afterFirst_edge ht ha h
  | @cons a b c h hsub ih =>
    intro l ht ha
    have hb : b ∈ afterFirst l a := mem_afterFirst_edge ht ha h
    obtain ⟨t, hdw, hsuf⟩ := dropWhile_ne_eq_cons ha
    have ht2 : TopoList d (a :: t) := topoList_suffix ht hsuf
    have htt : TopoList d t := (topoList_cons.mp ht2).2
    have haf : afterFirst l a = t := by rw [afterFirst, hdw]; rfl
    rw [haf] at hb ⊢
    exact afterFirst_subset (ih htt hb)

theorem nodup_not_mem_afterFirst {l : List NodeId} {u : NodeId}
    (hn : l.Nodup) (hu : u ∈ l) : u ∉ afterFirst l u := by
  obtain ⟨t, hdw, hsuf⟩ := dropWhile_ne_eq_cons hu
  rw [afterFirst, hdw]
  have h2 : (u :: t).Nodup := hn.sublist hsuf.sublist
  exact (List.nodup_cons.mp h2).1

theorem topo_acyclic {d : Document} {l : List NodeId} (ht : TopoList d l)
    (hall : ∀ x ∈ allNodeIds d, x ∈ l) (hn : l.Nodup) : Acyclic d := by
  intro u hr
  cases hr with
  | single h => exact absurd rfl (mem_succs.mp h).2
  | cons h hsub =>
    have humem : u ∈ l := hall u (edge_src_mem_allNodeIds h)
    have hmem := mem_afterFirst_reach (Reach.cons h hsub) ht humem
    exact nodup_not_mem_afterFirst hn humem hmem

theorem detect_empty_acyclic {d : Document} (h : detectCycles d = []) :
    Acyclic d := by
  obtain ⟨l, ht, hall, hn⟩ := detectCycles_empty_topo d h
  exact topo_acyclic ht hall hn

/-! ## Reachability search: unfolding equations and specification -/

theorem reachEdges_cons_mem {rec : NodeId → List NodeId → Bool × List NodeId}
    {v : NodeId} {vs vis : List NodeId} (h : v ∈ vis) :
    reachEdges rec (v :: vs) vis = reachEdges rec vs vis := by
  rw [reachEdges, if_pos h]

theorem reachEdges_cons_found {rec : NodeId → List NodeId → Bool × List NodeId}
    {v : NodeId} {vs vis : List NodeId} (h1 : v ∉ vis)
    (h2 : (rec v vis).1 = true) :
    reachEdges rec (v :: vs) vis = rec v vis := by
  rw [reachEdges, if_neg h1, if_pos h2]

theorem reachEdges_cons_miss {rec : NodeId → List NodeId → Bool × List NodeId}
    {v : NodeId} {vs vis : List NodeId} (h1 : v ∉ vis)
    (h2 : (rec v vis).1 = false) :
    reachEdges rec (v :: vs) vis = reachEdges rec vs (rec v vis).2 := by
  rw [reachEdges, if_neg h1, if_neg (by rw [h2]; exact Bool.false_ne_true)]

theorem reachVisit_succ_hit {d : Document} {target u : NodeId} {fuel : Nat}
    {vis : List NodeId} (h : u = target) :
    reachVisit d target (fuel + 1) u vis = (true, vis) := by
  rw [reachVisit, if_pos h]

theorem reachVisit_succ_miss {d : Document} {target u : NodeId} {fuel : Nat}
    {vis : List NodeId} (h : u ≠ target) :
    reachVisit d target (fuel + 1) u vis =
      reachEdges (fun v w => reachVisit d target fuel v w) (succs d u) (u :: vis) := by
  rw [reachVisit, if_neg h]

theorem reachEdges_spec (d : Document) (target : NodeId) (fuel : Nat)
    (ih : ∀ (v : NodeId) (vis : List NodeId),
      (allNodeIds d).length + 1 ≤ fuel + vis.length → vis.Nodup →
      (∀ x ∈ vis, x ∈ allNodeIds d) → v ∉ vis → v ∈ allNodeIds d →
      ReachOutSpec d target v vis (reachVisit d target fuel v vis)) :
    ∀ (vs vis : List NodeId),
      (allNodeIds d).length + 1 ≤ fuel + vis.length → vis.Nodup →
      (∀ x ∈ vis, x ∈ allNodeIds d) → (∀ v ∈ vs, v ∈ allNodeIds d) →
      ReachEdgesOutSpec d target vs vis
        (reachEdges (fun v w => reachVisit d target fuel v w) vs vis) := by
  intro vs
  induction vs with
  | nil =>
    intro vis _ _ _ _
    refine ⟨?_, ?_⟩
    · intro h
      simp [reachEdges] at h
    · intro _
      exact ⟨List.suffix_refl _, fun v hv => absurd hv (List.not_mem_nil v),
        fun x hx => Or.inl hx, id⟩
  | cons v vs ihvs =>
    intro vis hlen hnd hsub hvs
    by_cases hvv : v ∈ vis
    · rw [reachEdges_cons_mem hvv]
      obtain ⟨e1, e2⟩ := ihvs vis hlen hnd hsub
        (fun w hw => hvs w (List.mem_cons_of_mem _ hw))
      refine ⟨?_, ?_⟩
      · intro h
        obtain ⟨w, hw, hww⟩ := e1 h
        exact ⟨w, List.mem_cons_of_mem _ hw, hww⟩
      · intro h
        obtain ⟨f1, f2, f3, f4⟩ := e2 h
        refine ⟨f1, ?_, f3, f4⟩
        intro w hw
        rcases List.mem_cons.mp hw with rfl | hw'
        · exact f1.subset hvv
        · exact f2 w hw'
    · have hv := ih v vis hlen hnd hsub hvv (hvs v (List.mem_cons_self _ _))
      cases hp : (reachVisit d target fuel v vis).1 with
      | true =>
        rw [reachEdges_cons_found hvv hp]
        refine ⟨?_, ?_⟩
        · intro _
          exact ⟨v, List.mem_cons_self _ _, hv.1 hp⟩
        · intro h
          rw [hp] at h
          cases h
      | false =>
        obtain ⟨g1, g2, g3, g4⟩ := hv.2 hp
        rw [reachEdges_cons_miss hvv hp]
        have hlen2 : (allNodeIds d).length + 1 ≤
            fuel + (reachVisit d target fuel v vis).2.length := by
          have := g1.length_le
          omega
        have hnd2 : (reachVisit d target fuel v vis).2.Nodup := g4 hnd
        have hsub2 : ∀ x ∈ (reachVisit d target fuel v vis).2,
            x ∈ allNodeIds d := by
          intro x hx
          rcases g3 x hx with h | h
          · exact hsub x h
          · exact h.2.1
        obtain ⟨e1, e2⟩ := ihvs (reachVisit d target fuel v vis).2 hlen2 hnd2
          hsub2 (fun w hw => hvs w (List.mem_cons_of_mem _ hw))
        refine ⟨?_, ?_⟩
        · intro h
          obtain ⟨w, hw, hww⟩ := e1 h
          exact ⟨w, List.mem_cons_of_mem _ hw, hww⟩
        · intro h
          obtain ⟨f1, f2, f3, f4⟩ := e2 h
          refine ⟨g1.trans f1, ?_, ?_, fun hn => f4 (g4 hn)⟩
          · intro w hw
            rcases List.mem_cons.mp hw with rfl | hw'
            · exact f1.subset g2
            · exact f2 w hw'
          · intro x hx
            rcases f3 x hx with hx' | hx'
            · rcases g3 x hx' with h' | h'
              · exact Or.inl h'
              · exact Or.inr ⟨h'.1, h'.2.1, fun w hw => f1.subset (h'.2.2 w hw)⟩
            · exact Or.inr hx'

theorem reachVisit_spec (d : Document) (target : NodeId) :
    ∀ (fuel : Nat) (u : NodeId) (vis : List NodeId),
      (allNodeIds d).length + 1 ≤ fuel + vis.length → vis.Nodup →
      (∀ x ∈ vis, x ∈ allNodeIds d) → u ∉ vis → u ∈ allNodeIds d →
      ReachOutSpec d target u vis (reachVisit d target fuel u vis) := by
  intro fuel
  induction fuel with
  | zero =>
    intro u vis h1 h2 h3 _ _
    exfalso
    have : vis.length ≤ (allNodeIds d).length := (h2.subperm h3).length_le
    omega
  | succ fuel ih =>
    intro u vis h1 h2 h3 h4 h5
    by_cases hu : u = target
    · rw [reachVisit_succ_hit hu]
      exact ⟨fun _ => Or.inl hu, fun h => by cases h⟩
    · rw [reachVisit_succ_miss hu]
      have hlen : (allNodeIds d).length + 1 ≤ fuel + (u :: vis).length := by
        simp only [List.length_cons]
        omega
      have hnd : (u :: vis).Nodup := List.nodup_cons.mpr ⟨h4, h2⟩
      have hsub : ∀ x ∈ u :: vis, x ∈ allNodeIds d := by
        intro x hx
        rcases List.mem_cons.mp hx with rfl | hx'
        · exact h5
        · exact h3 x hx'
      obtain ⟨e1, e2⟩ := reachEdges_spec d target fuel ih (succs d u) (u :: vis)
        hlen hnd hsub (fun v hv => succs_mem_allNodeIds hv)
      refine ⟨?_, ?_⟩
      · intro h
        obtain ⟨v, hv, hvt⟩ := e1 h
        rcases hvt with rfl | hr
        · exact Or.inr (Reach.single hv)
        · exact Or.inr (Reach.cons hv hr)
      · intro h
        obtain ⟨f1, f2, f3, f4⟩ := e2 h
        refine ⟨(List.suffix_cons u vis).trans f1,
          f1.subset (List.mem_cons_self _ _), ?_, fun hn => f4 (List.nodup_cons.mpr ⟨h4, hn⟩)⟩
        intro x hx
        rcases f3 x hx with hx' | hx'
        · rcases List.mem_cons.mp hx' with rfl | hx''
          · exact Or.inr ⟨hu, h5, f2⟩
          · exact Or.inl hx''
        · exact Or.inr hx'

theorem reach_closed {d : Document} {S : List NodeId}
    (hS : ∀ x ∈ S, ∀ w ∈ succs d x, w ∈ S) :
    ∀ {u w : NodeId}, Reach d u w → u ∈ S → w ∈ S := by
  intro u w hr
  induction hr with
  | @single a b h => exact fun ha => hS a ha b h
  | @cons a b c h _ ih => exact fun ha => ih (hS a ha b h)

theorem reachesB_iff {d : Document} {s t : NodeId} (hs : s ∈ allNodeIds d) :
    reachesB d s t = true ↔ (s = t ∨ Reach d s t) := by
  have hspec := reachVisit_spec d t ((allNodeIds d).length + 1) s [] (by simp)
    List.nodup_nil (by simp) (List.not_mem_nil s) hs
  constructor
  · intro h
    exact hspec.1 h
  · intro h
    by_contra hfalse
    have hb : reachesB d s t = false := by
      revert hfalse
      rw [reachesB]
      cases (reachVisit d t ((allNodeIds d).length + 1) s []).1 <;> simp
    rw [reachesB] at hb
    obtain ⟨f1, f2, f3, f4⟩ := hspec.2 hb
    have htout : t ∉ (reachVisit d t ((allNodeIds d).length + 1) s []).2 := by
      intro htS
      rcases f3 t htS with h' | h'
      · exact absurd h' (List.not_mem_nil t)
      · exact absurd rfl h'.1
    have hclosed : ∀ x ∈ (reachVisit d t ((allNodeIds d).length + 1) s []).2,
        ∀ w ∈ succs d x, w ∈ (reachVisit d t ((allNodeIds d).length + 1) s []).2 := by
      intro x hx
      rcases f3 x hx with h' | h'
      · exact absurd h' (List.not_mem_nil x)
      · exact h'.2.2
    rcases h with rfl | hr
    · exact htout f2
    · exact htout (reach_closed hclosed hr f2)

/-! ## Duplicate collapse: dedupAux facts -/

theorem dedupAux_sublist : ∀ (l seen : List RawId), List.Sublist (dedupAux l seen) l := by
  intro l
  induction l with
  | nil => intro seen; exact List.Sublist.refl _
  | cons r rest ih =>
    intro seen
    rw [dedupAux]
    by_cases h : r ∈ seen
    · rw [if_pos h]
      exact (ih seen).trans (List.sublist_cons_self r rest)
    · rw [if_neg h]
      exact List.Sublist.cons₂ r (ih (r :: seen))

theorem dedupAux_nodup : ∀ (l seen : List RawId),
    (dedupAux l seen).Nodup ∧ ∀ x ∈ dedupAux l seen, x ∉ seen := by
  intro l
  induction l with
  | nil => intro seen; exact ⟨List.nodup_nil, fun x hx => absurd hx (List.not_mem_nil x)⟩
  | cons r rest ih =>
    intro seen
    rw [dedupAux]
    by_cases h : r ∈ seen
    · rw [if_pos h]
      exact ih seen
    · rw [if_neg h]
      obtain ⟨hnd, hout⟩ := ih (r :: seen)
      refine ⟨List.nodup_cons.mpr ⟨?_, hnd⟩, ?_⟩
      · intro hr
        exact hout r hr (List.mem_cons_self _ _)
      · intro x hx
        rcases List.mem_cons.mp hx with rfl | hx'
        · exact h
        · exact fun hxs => hout x hx' (List.mem_cons_of_mem _ hxs)

theorem dedupAux_eq_self : ∀ (l seen : List RawId), l.Nodup →
    (∀ x ∈ l, x ∉ seen) → dedupAux l seen = l := by
  intro l
  induction l with
  | nil => intro seen _ _; rfl
  | cons r rest ih =>
    intro seen hnd hout
    rw [dedupAux, if_neg (hout r (List.mem_cons_self _ _))]
    congr 1
    apply ih (r :: seen) (List.nodup_cons.mp hnd).2
    intro x hx
    intro hmem
    rcases List.mem_cons.mp hmem with rfl | hmem'
    · exact (List.nodup_cons.mp hnd).1 hx
    · exact hout x (List.mem_cons_of_mem _ hx) hmem'

theorem extrasAux_nil : ∀ (l seen : List RawId), l.Nodup →
    (∀ x ∈ l, x ∉ seen) → extrasAux l seen = [] := by
  intro l
  induction l with
  | nil => intro seen _ _; rfl
  | cons r rest ih =>
    intro seen hnd hout
    rw [extrasAux, if_neg (hout r (List.mem_cons_self _ _))]
    apply ih (r :: seen) (List.nodup_cons.mp hnd).2
    intro x hx hmem
    rcases List.mem_cons.mp hmem with rfl | hmem'
    · exact (List.nodup_cons.mp hnd).1 hx
    · exact hout x (List.mem_cons_of_mem _ hx) hmem'

/-! ## Repair phases: establishing and preserving the structural invariants -/

theorem noDangling_mapDeps {d : Document} {f : NodeId → List RawId → List RawId}
    (hf : ∀ nid l, List.Sublist (f nid l) l) (h : NoDangling d) :
    NoDangling (mapDeps f d) := by
  intro e he r hr
  rw [allNodes_mapDeps] at he
  obtain ⟨e0, he0, rfl⟩ := List.mem_map.mp he
  rw [resolveRaw_mapDeps]
  exact h e0 he0 r ((hf e0.nid e0.deps).subset hr)

theorem noSelf_mapDeps {d : Document} {f : NodeId → List RawId → List RawId}
    (hf : ∀ nid l, List.Sublist (f nid l) l) (h : NoSelf d) :
    NoSelf (mapDeps f d) := by
  intro e he r hr
  rw [allNodes_mapDeps] at he
  obtain ⟨e0, he0, rfl⟩ := List.mem_map.mp he
  rw [resolveRaw_mapDeps]
  exact h e0 he0 r ((hf e0.nid e0.deps).subset hr)

theorem noDups_mapDeps {d : Document} {f : NodeId → List RawId → List RawId}
    (hf : ∀ nid l, List.Sublist (f nid l) l) (h : NoDups d) :
    NoDups (mapDeps f d) := by
  intro e he
  rw [allNodes_mapDeps] at he
  obtain ⟨e0, he0, rfl⟩ := List.mem_map.mp he
  exact (h e0 he0).sublist (hf e0.nid e0.deps)

theorem noDangling_removeDangling (d : Document) :
    NoDangling (removeDanglingDoc d) := by
  intro e he r hr
  rw [removeDanglingDoc, allNodes_mapDeps] at he
  obtain ⟨e0, he0, rfl⟩ := List.mem_map.mp he
  rw [removeDanglingDoc, resolveRaw_mapDeps]
  exact (List.mem_filter.mp hr).2

theorem noSelf_removeSelf (d : Document) : NoSelf (removeSelfDoc d) := by
  intro e he r hr
  rw [removeSelfDoc, allNodes_mapDeps] at he
  obtain ⟨e0, he0, rfl⟩ := List.mem_map.mp he
  rw [removeSelfDoc, resolveRaw_mapDeps]
  have := (List.mem_filter.mp hr).2
  simpa using this

theorem noDangling_removeSelf {d : Document} (h : NoDangling d) :
    NoDangling (removeSelfDoc d) :=
  noDangling_mapDeps (fun _ l => List.filter_sublist l) h

theorem noDups_dedupDoc (d : Document) : NoDups (dedupDoc d) := by
  intro e he
  rw [dedupDoc, allNodes_mapDeps] at he
  obtain ⟨e0, he0, rfl⟩ := List.mem_map.mp he
  exact (dedupAux_nodup e0.deps []).1

theorem noDangling_dedupDoc {d : Document} (h : NoDangling d) :
    NoDangling (dedupDoc d) :=
  noDangling_mapDeps (fun _ l => dedupAux_sublist l []) h

theorem noSelf_dedupDoc {d : Document} (h : NoSelf d) : NoSelf (dedupDoc d) :=
  noSelf_mapDeps (fun _ l => dedupAux_sublist l []) h

theorem removeEdgeDoc_sublist (d : Document) (u v : NodeId) :
    ∀ (nid : NodeId) (l : List RawId),
      List.Sublist (if nid = u then
        l.filter (fun r => !(resolveRaw d r == some v)) else l) l := by
  intro nid l
  split
  · exact List.filter_sublist l
  · exact List.Sublist.refl l

theorem noDangling_removeEdgeDoc {d : Document} {u v : NodeId}
    (h : NoDangling d) : NoDangling (removeEdgeDoc d u v) :=
  noDangling_mapDeps (removeEdgeDoc_sublist d u v) h

theorem noSelf_removeEdgeDoc {d : Document} {u v : NodeId} (h : NoSelf d) :
    NoSelf (removeEdgeDoc d u v) :=
  noSelf_mapDeps (removeEdgeDoc_sublist d u v) h

theorem noDups_removeEdgeDoc {d : Document} {u v : NodeId} (h : NoDups d) :
    NoDups (removeEdgeDoc d u v) :=
  noDups_mapDeps (removeEdgeDoc_sublist d u v) h

/-! ## Cycle breaking: termination and postconditions -/

theorem breakCycles_succ_empty {d : Document} {fuel : Nat}
    (h : detectCycles d = []) : breakCycles (fuel + 1) d = (d, []) := by
  rw [breakCycles, h]

theorem breakCycles_succ_cons {d : Document} {fuel : Nat} {v : NodeId}
    {t : List NodeId} {rest : CycleList}
    (h : detectCycles d = (v :: t) :: rest) :
    breakCycles (fuel + 1) d =
      ((breakCycles fuel (removeEdgeDoc d (lastD v t) v)).1,
        ChangeEntry.removedCycleEdge (lastD v t) v ::
          (breakCycles fuel (removeEdgeDoc d (lastD v t) v)).2) := by
  rw [breakCycles, h]

theorem removeEdge_totalDeps_lt {d : Document} {u v : NodeId}
    (hedge : v ∈ succs d u) : totalDeps (removeEdgeDoc d u v) < totalDeps d := by
  obtain ⟨⟨r, hrmem, hrres⟩, -⟩ := mem_succs.mp hedge
  have hlook : ∃ e0, lookupEntry d u = some e0 := by
    rw [depsOf] at hrmem
    cases hl : lookupEntry d u with
    | none => rw [hl] at hrmem; simp at hrmem
    | some e0 => exact ⟨e0, rfl⟩
  obtain ⟨e0, hl⟩ := hlook
  have he0 : e0 ∈ allNodes d := lookupEntry_mem_allNodes hl
  have hnid : e0.nid = u := lookupEntry_nid hl
  have hdeps : depsOf d u = e0.deps := by rw [depsOf, hl]; rfl
  rw [removeEdgeDoc, totalDeps_mapDeps, totalDeps]
  apply List.sum_lt_sum
  · intro e _
    dsimp only
    split
    · exact List.length_filter_le _ _
    · exact le_refl _
  · refine ⟨e0, he0, ?_⟩
    dsimp only
    rw [if_pos hnid]
    apply List.length_filter_lt_length_iff_exists.mpr
    refine ⟨r, by rw [← hdeps]; exact hrmem, ?_⟩
    simp [hrres]

theorem breakCycles_detect_empty : ∀ (fuel : Nat) (d : Document),
    totalDeps d < fuel → detectCycles (breakCycles fuel d).1 = [] := by
  intro fuel
  induction fuel with
  | zero => intro d h; exact absurd h (Nat.not_lt_zero _)
  | succ fuel ih =>
    intro d h
    cases hdet : detectCycles d with
    | nil => rw [breakCycles_succ_empty hdet]; exact hdet
    | cons cyc rest =>
      cases cyc with
      | nil =>
        exfalso
        obtain ⟨v, t, ht, -⟩ :=
          detectCycles_sound d [] (by rw [hdet]; exact List.mem_cons_self _ _)
        cases ht
      | cons v t =>
        rw [breakCycles_succ_cons hdet]
        apply ih
        have hedge : v ∈ succs d (lastD v t) := by
          obtain ⟨v2, t2, heq, hmem⟩ := detectCycles_sound d (v :: t)
            (by rw [hdet]; exact List.mem_cons_self _ _)
          injection heq with h1 h2
          subst h1
          subst h2
          exact hmem
        have := removeEdge_totalDeps_lt hedge
        omega

theorem breakCycles_clean : ∀ (fuel : Nat) (d : Document),
    NoDangling d → NoSelf d → NoDups d →
    NoDangling (breakCycles fuel d).1 ∧ NoSelf (breakCycles fuel d).1 ∧
      NoDups (breakCycles fuel d).1 := by
  intro fuel
  induction fuel with
  | zero => intro d h1 h2 h3; exact ⟨h1, h2, h3⟩
  | succ fuel ih =>
    intro d h1 h2 h3
    cases hdet : detectCycles d with
    | nil => rw [breakCycles_succ_empty hdet]; exact ⟨h1, h2, h3⟩
    | cons cyc rest =>
      cases cyc with
      | nil =>
        exfalso
        obtain ⟨v, t, ht, -⟩ :=
          detectCycles_sound d [] (by rw [hdet]; exact List.mem_cons_self _ _)
        cases ht
      | cons v t =>
        rw [breakCycles_succ_cons hdet]
        exact ih _ (noDangling_removeEdgeDoc h1) (noSelf_removeEdgeDoc h2)
          (noDups_removeEdgeDoc h3)

/-! ## Repair: postconditions and idempotence -/

theorem repair_document_eq (d : Document) :
    (repair d).document = (breakCycles
      (totalDeps (dedupDoc (removeSelfDoc (removeDanglingDoc d))) + 1)
      (dedupDoc (removeSelfDoc (removeDanglingDoc d)))).1 := rfl

theorem repair_reports_eq (d : Document) :
    (repair d).prematureReports = prematureFindings (repair d).document := rfl

theorem repair_clean (d : Document) :
    NoDangling (repair d).document ∧ NoSelf (repair d).document ∧
      NoDups (repair d).document ∧ detectCycles (repair d).document = [] := by
  have h1 : NoDangling (dedupDoc (removeSelfDoc (removeDanglingDoc d))) :=
    noDangling_dedupDoc (noDangling_removeSelf (noDangling_removeDangling d))
  have h2 : NoSelf (dedupDoc (removeSelfDoc (removeDanglingDoc d))) :=
    noSelf_dedupDoc (noSelf_removeSelf (removeDanglingDoc d))
  have h3 : NoDups (dedupDoc (removeSelfDoc (removeDanglingDoc d))) :=
    noDups_dedupDoc (removeSelfDoc (removeDanglingDoc d))
  obtain ⟨c1, c2, c3⟩ := breakCycles_clean _ _ h1 h2 h3
  have c4 := breakCycles_detect_empty _ _
    (Nat.lt_succ_self (totalDeps (dedupDoc (removeSelfDoc (removeDanglingDoc d)))))
  rw [repair_document_eq]
  exact ⟨c1, c2, c3, c4⟩

theorem acyclic_repair (d : Document) : Acyclic (repair d).document :=
  detect_empty_acyclic (repair_clean d).2.2.2

theorem flatMapNil {α β : Type} {l : List α} {f : α → List β}
    (h : ∀ x ∈ l, f x = []) : l.flatMap f = [] := by
  induction l with
  | nil => rfl
  | cons a t ih =>
    rw [List.flatMap_cons, h a (List.mem_cons_self a t), List.nil_append]
    exact ih fun x hx => h x (List.mem_cons_of_mem a hx)

theorem depFindings_nil {d : Document} {nid : NodeId} :
    ∀ (deps seen : List RawId),
      (∀ r ∈ deps, (resolveRaw d r).isSome = true) →
      (∀ r ∈ deps, resolveRaw d r ≠ some nid) →
      deps.Nodup → (∀ r ∈ deps, r ∉ seen) →
      depFindings d nid deps seen = [] := by
  intro deps
  induction deps with
  | nil => intro seen _ _ _ _; rfl
  | cons r rest ih =>
    intro seen hres hself hnd hseen
    have h1 : (resolveRaw d r).isSome = true := hres r (List.mem_cons_self _ _)
    cases hm : resolveRaw d r with
    | none => rw [hm] at h1; cases h1
    | some m =>
      have hmne : m ≠ nid := fun he =>
        hself r (List.mem_cons_self _ _) (by rw [hm, he])
      simp only [depFindings, hm]
      rw [if_neg hmne, if_neg (hseen r (List.mem_cons_self _ _))]
      simp only [List.nil_append]
      apply ih (r :: seen)
      · exact fun x hx => hres x (List.mem_cons_of_mem _ hx)
      · exact fun x hx => hself x (List.mem_cons_of_mem _ hx)
      · exact (List.nodup_cons.mp hnd).2
      · intro x hx hmem
        rcases List.mem_cons.mp hmem with rfl | hmem'
        · exact (List.nodup_cons.mp hnd).1 hx
        · exact hseen x (List.mem_cons_of_mem _ hx) hmem'

theorem nodeFindings_nil {d : Document} (h1 : NoDangling d) (h2 : NoSelf d)
    (h3 : NoDups d) : nodeFindings d = [] := by
  rw [nodeFindings]
  apply flatMapNil
  intro e he
  exact depFindings_nil e.deps [] (h1 e he) (h2 e he) (h3 e he)
    (fun r _ => List.not_mem_nil r)

theorem filter_structural_premature {d : Document} :
    (prematureFindings d).filter isStructural = [] := by
  apply List.filter_eq_nil_iff.mpr
  intro f hf
  rw [prematureFindings] at hf
  obtain ⟨e, -, hfe⟩ := List.mem_flatMap.mp hf
  rw [prematureOfEntry] at hfe
  by_cases hst : (e.status == doneS) = true
  · rw [if_pos hst] at hfe
    obtain ⟨r, -, hout⟩ := List.mem_filterMap.mp hfe
    cases hres : resolveRaw d r with
    | none => rw [hres] at hout; cases hout
    | some m =>
      simp only [hres] at hout
      cases hsts : statusOf d m with
      | none => simp only [hsts] at hout; cases hout
      | some st =>
        simp only [hsts] at hout
        by_cases hdone : (st == doneS) = true
        · rw [if_pos hdone] at hout; cases hout
        · rw [if_neg hdone] at hout
          cases hout
          simp [isStructural]
  · rw [if_neg hst] at hfe
    cases hfe

theorem validate_structural_nil {d : Document} (h1 : NoDangling d)
    (h2 : NoSelf d) (h3 : NoDups d) (h4 : detectCycles d = []) :
    (validate d).filter isStructural = [] := by
  rw [validate, nodeFindings_nil h1 h2 h3, h4]
  simp only [List.map_nil, List.nil_append]
  exact filter_structural_premature

theorem removeDanglingDoc_eq_self {d : Document} (h : NoDangling d) :
    removeDanglingDoc d = d := by
  apply mapDeps_eq_self
  intro e he
  exact List.filter_eq_self.mpr fun r hr => h e he r hr

theorem danglingLog_nil {d : Document} (h : NoDangling d) :
    danglingLog d = [] := by
  rw [danglingLog]
  apply flatMapNil
  intro e he
  have hfil : e.deps.filter (fun r => !(resolveRaw d r).isSome) = [] :=
    List.filter_eq_nil_iff.mpr fun r hr => by simp [h e he r hr]
  rw [hfil]
  rfl

theorem removeSelfDoc_eq_self {d : Document} (h : NoSelf d) :
    removeSelfDoc d = d := by
  apply mapDeps_eq_self
  intro e he
  apply List.filter_eq_self.mpr
  intro r hr
  simp [h e he r hr]

theorem selfLog_nil {d : Document} (h : NoSelf d) : selfLog d = [] := by
  rw [selfLog]
  apply flatMapNil
  intro e he
  have hfil : e.deps.filter (fun r => resolveRaw d r == some e.nid) = [] :=
    List.filter_eq_nil_iff.mpr fun r hr => by simp [h e he r hr]
  rw [hfil]
  rfl

theorem dedupDoc_eq_self {d : Document} (h : NoDups d) : dedupDoc d = d := by
  apply mapDeps_eq_self
  intro e he
  exact dedupAux_eq_self e.deps [] (h e he) fun x _ => List.not_mem_nil x

theorem dupLog_nil {d : Document} (h : NoDups d) : dupLog d = [] := by
  rw [dupLog]
  apply flatMapNil
  intro e he
  rw [extrasAux_nil e.deps [] (h e he) fun x _ => List.not_mem_nil x]
  rfl

theorem breakCycles_id {d : Document} (fuel : Nat)
    (h : detectCycles d = []) : breakCycles fuel d = (d, []) := by
  cases fuel with
  | zero => rfl
  | succ fuel => exact breakCycles_succ_empty h

theorem repair_of_clean {d : Document} (h1 : NoDangling d) (h2 : NoSelf d)
    (h3 : NoDups d) (h4 : detectCycles d = []) :
    repair d = ⟨d, [], prematureFindings d⟩ := by
  have e1 : removeDanglingDoc d = d := removeDanglingDoc_eq_self h1
  have e2 : removeSelfDoc d = d := removeSelfDoc_eq_self h2
  have e3 : dedupDoc d = d := dedupDoc_eq_self h3
  simp only [repair, e1, e2, e3, breakCycles_id _ h4, danglingLog_nil h1,
    selfLog_nil h2, dupLog_nil h3, List.append_nil]

theorem repair_idem_aux (d : Document) :
    repair (repair d).document =
      ⟨(repair d).document, [], (repair d).prematureReports⟩ := by
  obtain ⟨c1, c2, c3, c4⟩ := repair_clean d
  rw [repair_of_clean c1 c2 c3 c4, repair_reports_eq]

/-! ## Status updates and the status consistency checker -/

theorem lookupEntry_setStatusDoc (d : Document) (nid : NodeId) (st : String)
    (nid2 : NodeId) :
    lookupEntry (setStatusDoc d nid st) nid2 =
      (lookupEntry d nid2).map
        (fun e => ⟨e.nid, e.deps, if nid2 = nid then st else e.status⟩) := by
  cases nid2 with
  | task t =>
    simp only [lookupEntry, setStatusDoc]
    rw [find?_map_of_pred (setTaskStatus nid st) (fun tk => tk.tid == t) (fun x => rfl)]
    cases hf : d.tasks.find? (fun tk => tk.tid == t) with
    | none => rfl
    | some tk =>
      have ht : tk.tid = t := by simpa using List.find?_some hf
      simp [ht, setTaskStatus]
  | sub p s =>
    simp only [lookupEntry, setStatusDoc]
    rw [find?_map_of_pred (setTaskStatus nid st) (fun tk => tk.tid == p) (fun x => rfl)]
    cases hf : d.tasks.find? (fun tk => tk.tid == p) with
    | none => rfl
    | some tk =>
      have ht : tk.tid = p := by simpa using List.find?_some hf
      simp only [Option.map_some', Option.some_bind, setTaskStatus]
      rw [find?_map_of_pred (setSubStatus nid st tk.tid) (fun sb => sb.sid == s)
        (fun x => rfl)]
      cases hs : tk.subtasks.find? (fun sb => sb.sid == s) with
      | none => rfl
      | some sb =>
        have hss : sb.sid = s := by simpa using List.find?_some hs
        simp [ht, hss, setSubStatus]

theorem resolvesId_setStatusDoc (d : Document) (nid : NodeId) (st : String)
    (nid2 : NodeId) :
    resolvesId (setStatusDoc d nid st) nid2 = resolvesId d nid2 := by
  simp [resolvesId, lookupEntry_setStatusDoc]

theorem resolveRaw_setStatusDoc (d : Document) (nid : NodeId) (st : String)
    (r : RawId) : resolveRaw (setStatusDoc d nid st) r = resolveRaw d r := by
  rw [resolveRaw, resolveRaw]
  cases parseRawId r with
  | none => rfl
  | some m =>
    show (if resolvesId (setStatusDoc d nid st) m = true then some m else none) =
      (if resolvesId d m = true then some m else none)
    rw [resolvesId_setStatusDoc]

theorem statusOf_setStatusDoc_self {d : Document} {nid : NodeId} {e : Entry}
    (st : String) (hl : lookupEntry d nid = some e) :
    statusOf (setStatusDoc d nid st) nid = some st := by
  rw [statusOf, lookupEntry_setStatusDoc, hl]
  simp

theorem statusOf_setStatusDoc_other {d : Document} {nid nid2 : NodeId}
    (st : String) (h : nid2 ≠ nid) :
    statusOf (setStatusDoc d nid st) nid2 = statusOf d nid2 := by
  rw [statusOf, statusOf, lookupEntry_setStatusDoc]
  cases lookupEntry d nid2 with
  | none => rfl
  | some e => simp [h]

theorem lookupEntry_setStatusDoc_self {d : Document} {nid : NodeId} {e : Entry}
    (st : String) (hl : lookupEntry d nid = some e) :
    lookupEntry (setStatusDoc d nid st) nid = some ⟨e.nid, e.deps, st⟩ := by
  rw [lookupEntry_setStatusDoc, hl]
  simp

theorem canComplete_iff {nid : NodeId} {d : Document} :
    canComplete nid d = true ↔
      ∀ r ∈ depsOf d nid, ∀ m, resolveRaw d r = some m →
        statusOf d m = some doneS := by
  rw [canComplete, List.all_eq_true]
  constructor
  · intro h r hr m hm
    have hrr := h r hr
    simp only [hm] at hrr
    simpa using hrr
  · intro h r hr
    cases hm : resolveRaw d r with
    | none => simp only [hm]
    | some m =>
      simp only [hm]
      simp [h r hr m hm]

theorem setStatus_none {d : Document} {id : RawId} {st : String}
    {override : Bool} (h : resolveRaw d id = none) :
    setStatus id st override d = .error .nodeNotFound := by
  rw [setStatus, h]

theorem setStatus_some {d : Document} {id : RawId} {st : String}
    {override : Bool} {nid : NodeId} (h : resolveRaw d id = some nid) :
    setStatus id st override d =
      (if st == doneS && !canComplete nid d && !override then
        .error .prematureCompletion
      else .ok (setStatusDoc d nid st)) := by
  rw [setStatus, h]

theorem premature_mem_validate {d : Document} {nid : NodeId} {e : Entry}
    {r : RawId} {m : NodeId} {stm : String}
    (hl : lookupEntry d nid = some e) (hst : e.status = doneS)
    (hr : r ∈ e.deps) (hres : resolveRaw d r = some m)
    (hsts : statusOf d m = some stm) (hne : stm ≠ doneS) :
    Finding.premature nid m ∈ validate d := by
  rw [validate]
  apply List.mem_append.mpr
  right
  rw [prematureFindings]
  apply List.mem_flatMap.mpr
  refine ⟨e, lookupEntry_mem_allNodes hl, ?_⟩
  rw [prematureOfEntry, if_pos (by simp [hst])]
  apply List.mem_filterMap.mpr
  refine ⟨r, hr, ?_⟩
  simp only [hres, hsts]
  rw [if_neg (by simp [hne]), lookupEntry_nid hl]

theorem dangling_mem_validate {d : Document} {nid : NodeId} {e : Entry}
    {r : RawId} (hl : lookupEntry d nid = some e) (hr : r ∈ e.deps)
    (hres : resolveRaw d r = none) : Finding.dangling nid r ∈ validate d := by
  rw [validate]
  apply List.mem_append.mpr
  left
  apply List.mem_append.mpr
  left
  rw [nodeFindings]
  apply List.mem_flatMap.mpr
  refine ⟨e, lookupEntry_mem_allNodes hl, ?_⟩
  rw [lookupEntry_nid hl]
  exact depFindings_dangling_mem hr hres []

/-! ## Mutation operations: unfolding equations -/

theorem addDependency_resolved {d : Document} {fromId toId : RawId}
    {f t : NodeId} (hf : resolveRaw d fromId = some f)
    (ht : resolveRaw d toId = some t) :
    addDependency fromId toId d =
      (if f = t then .error .invalidDependency
       else if hasEdge d f t then .error .invalidDependency
       else if reachesB d t f then .error .wouldCreateCycle
       else .ok (addEdgeDoc d f toId)) := by
  rw [addDependency, hf, ht]

theorem addDependency_unresolved {d : Document} {fromId toId : RawId}
    (h : resolveRaw d fromId = none ∨ resolveRaw d toId = none) :
    addDependency fromId toId d = .error .nodeNotFound := by
  rcases h with h | h
  · cases ht : resolveRaw d toId <;> rw [addDependency, h, ht]
  · cases hf : resolveRaw d fromId <;> rw [addDependency, hf, h]

theorem removeDependency_resolved {d : Document} {fromId toId : RawId}
    {f t : NodeId} (hf : resolveRaw d fromId = some f)
    (ht : parseRawId toId = some t) :
    removeDependency fromId toId d =
      (if (depsOf d f).any (fun r => parseRawId r == some t) then
        .ok (mapDeps (fun nid l =>
          if nid = f then l.filter (fun r => !(parseRawId r == some t)) else l) d)
      else .error .nodeNotFound) := by
  rw [removeDependency, hf, ht]

theorem removeDependency_unresolved {d : Document} {fromId toId : RawId}
    (h : resolveRaw d fromId = none ∨ parseRawId toId = none) :
    removeDependency fromId toId d = .error .nodeNotFound := by
  rcases h with h | h
  · cases ht : parseRawId toId <;> rw [removeDependency, h, ht]
  · cases hf : resolveRaw d fromId <;> rw [removeDependency, hf, h]

/-! ## Claim theorems -/

/-- C1: the repair operation is idempotent.  For every document, repair
applied to the document produced by repair returns that same document
unchanged, with an empty change log, the same distinctly-returned premature
reports, and no structural findings left for a further run to act on. -/
theorem claim_repair_idempotent (d : Document) :
    repair (repair d).document =
      ⟨(repair d).document, [], (repair d).prematureReports⟩ ∧
    (repair (repair d).document).document = (repair d).document ∧
    (repair (repair d).document).log = [] ∧
    (validate (repair d).document).filter isStructural = [] := by
  have h := repair_idem_aux d
  obtain ⟨c1, c2, c3, c4⟩ := repair_clean d
  exact ⟨h, by rw [h], by rw [h], validate_structural_nil c1 c2 c3 c4⟩

/-- C2: validate on the repaired document yields no structural findings:
every dependency identifier of every node resolves, no node depends on
itself, no dependency list contains duplicates, and the dependency graph
restricted to resolvable edges is acyclic. -/
theorem claim_validate_after_repair (d : Document) :
    (validate (repair d).document).filter isStructural = [] ∧
    NoDangling (repair d).document ∧
    NoSelf (repair d).document ∧
    NoDups (repair d).document ∧
    Acyclic (repair d).document := by
  obtain ⟨c1, c2, c3, c4⟩ := repair_clean d
  exact ⟨validate_structural_nil c1 c2 c3 c4, c1, c2, c3, detect_empty_acyclic c4⟩

/-- C5: for the document with only the edges 1 to 2, 2 to 3 and 3 to 1, the
detector reports the cycle [1, 2, 3] and repair removes exactly the
cycle-closing edge from the last node (3) back to the first (1), leaving
exactly the edges 1 to 2 and 2 to 3, an acyclic graph, and exactly one
change-log entry. -/
theorem claim_minimal_cycle_removal :
    detectCycles docCycle3 = [[NodeId.task 1, NodeId.task 2, NodeId.task 3]] ∧
    repair docCycle3 =
      ⟨docCycle3Fixed,
        [ChangeEntry.removedCycleEdge (NodeId.task 3) (NodeId.task 1)], []⟩ ∧
    depsOf docCycle3Fixed (NodeId.task 1) = [RawId.num 2] ∧
    depsOf docCycle3Fixed (NodeId.task 2) = [RawId.num 3] ∧
    depsOf docCycle3Fixed (NodeId.task 3) = [] ∧
    Acyclic docCycle3Fixed ∧
    (repair docCycle3).log.length = 1 := by
  refine ⟨rfl, rfl, rfl, rfl, rfl, ?_, rfl⟩
  exact detect_empty_acyclic (by rfl)

/-- C8: validate and repair are deterministic — as pure functions of the
document (traversal in document order, edges in listed order), two runs on
equal documents produce identical finding sequences, and the repairer
removes the same cycle edges. -/
theorem claim_validate_deterministic (d1 d2 : Document) (h : d1 = d2) :
    validate d1 = validate d2 ∧ repair d1 = repair d2 ∧
      (repair d1).log = (repair d2).log := by
  subst h
  exact ⟨rfl, rfl, rfl⟩

/-- C8 witness: the determinism theorem applied to a concrete document. -/
theorem claim_validate_deterministic_witness :
    validate docCycle3 = validate docCycle3 ∧
      repair docCycle3 = repair docCycle3 ∧
      (repair docCycle3).log = (repair docCycle3).log :=
  claim_validate_deterministic docCycle3 docCycle3 rfl

/-- C3: addDependency fails with NodeNotFound exactly when an identifier
does not resolve; once resolved, it fails with InvalidDependency exactly
for a self edge or an existing edge, with WouldCreateCycle exactly when the
target can already reach the source along existing edges, and otherwise
appends exactly that edge (failures return only an error, leaving the
document unmodified).  For the chain document 1 to 2 to 3, adding 3 to 1
fails with WouldCreateCycle; adding 5 to 5 fails with InvalidDependency;
adding 5 to 6 twice leaves exactly one edge 5 to 6. -/
theorem claim_addDependency (d : Document) (fromId toId : RawId) :
    (addDependency fromId toId d = .error .nodeNotFound ↔
      resolveRaw d fromId = none ∨ resolveRaw d toId = none) ∧
    (∀ f t, resolveRaw d fromId = some f → resolveRaw d toId = some t →
      (addDependency fromId toId d = .error .invalidDependency ↔
        f = t ∨ hasEdge d f t = true) ∧
      (addDependency fromId toId d = .error .wouldCreateCycle ↔
        f ≠ t ∧ hasEdge d f t = false ∧ Reach d t f) ∧
      (f ≠ t → hasEdge d f t = false → ¬ Reach d t f →
        addDependency fromId toId d = .ok (addEdgeDoc d f toId))) ∧
    addDependency (RawId.num 3) (RawId.num 1) docChain =
      .error .wouldCreateCycle ∧
    addDependency (RawId.num 5) (RawId.num 5) doc56 =
      .error .invalidDependency ∧
    addDependency (RawId.num 5) (RawId.num 6) doc56 = .ok doc56After ∧
    addDependency (RawId.num 5) (RawId.num 6) doc56After =
      .error .invalidDependency ∧
    depsOf doc56After (NodeId.task 5) = [RawId.num 6] := by
  refine ⟨?_, ?_, rfl, rfl, rfl, rfl, rfl⟩
  · constructor
    · intro h
      by_contra hcon
      push_neg at hcon
      obtain ⟨h1, h2⟩ := hcon
      obtain ⟨f, hf⟩ := Option.ne_none_iff_exists'.mp h1
      obtain ⟨t, ht⟩ := Option.ne_none_iff_exists'.mp h2
      rw [addDependency_resolved hf ht] at h
      split at h
      · simp at h
      · split at h
        · simp at h
        · split at h <;> simp at h
    · exact addDependency_unresolved
  · intro f t hf ht
    have htmem : t ∈ allNodeIds d :=
      resolves_mem_allNodeIds (resolveRaw_resolves ht)
    rw [addDependency_resolved hf ht]
    by_cases hft : f = t
    · rw [if_pos hft]
      refine ⟨⟨fun _ => Or.inl hft, fun _ => rfl⟩, ⟨?_, ?_⟩, ?_⟩
      · intro h
        simp at h
      · rintro ⟨hne, -⟩
        exact absurd hft hne
      · intro hne
        exact absurd hft hne
    · rw [if_neg hft]
      by_cases hedge : hasEdge d f t = true
      · rw [if_pos hedge]
        refine ⟨⟨fun _ => Or.inr hedge, fun _ => rfl⟩, ⟨?_, ?_⟩, ?_⟩
        · intro h
          simp at h
        · rintro ⟨-, he, -⟩
          rw [hedge] at he
          cases he
        · intro _ he
          rw [hedge] at he
          cases he
      · have hedge2 : hasEdge d f t = false := by
          revert hedge
          cases hasEdge d f t <;> simp
        rw [if_neg hedge]
        by_cases hreach : reachesB d t f = true
        · rw [if_pos hreach]
          have hr : Reach d t f := by
            rcases (reachesB_iff htmem).mp hreach with heq | hr
            · exact absurd heq.symm hft
            · exact hr
          refine ⟨⟨?_, ?_⟩, ⟨fun _ => ⟨hft, hedge2, hr⟩, fun _ => rfl⟩, ?_⟩
          · intro h
            simp at h
          · intro h
            rcases h with h | h
            · exact absurd h hft
            · exact absurd h hedge
          · intro _ _ hnr
            exact absurd hr hnr
        · rw [if_neg hreach]
          refine ⟨⟨?_, ?_⟩, ⟨?_, ?_⟩, fun _ _ _ => rfl⟩
          · intro h
            simp at h
          · intro h
            rcases h with h | h
            · exact absurd h hft
            · exact absurd h hedge
          · intro h
            simp at h
          · rintro ⟨-, -, hr⟩
            exact absurd ((reachesB_iff htmem).mpr (Or.inr hr)) hreach

/-- C3 witness: the characterization applied at the chain document, with the
reachability hypothesis discharged by an explicit path 1 to 2 to 3. -/
theorem claim_addDependency_witness :
    addDependency (RawId.num 3) (RawId.num 1) docChain =
      .error .wouldCreateCycle := by
  have h := (claim_addDependency docChain (RawId.num 3) (RawId.num 1)).2.1
    (NodeId.task 3) (NodeId.task 1) (by rfl) (by rfl)
  refine h.2.1.mpr ⟨by decide, by rfl, ?_⟩
  exact Reach.cons (v := NodeId.task 2) (by decide) (Reach.single (by decide))

/-- C4: canComplete is true iff every resolved dependency is done; without
the override flag, setting a resolved node to done is rejected with a
PrematureCompletion-kind error exactly when canComplete is false; with the
override flag the mutation succeeds; any status other than done is set
without invoking the check; and after an overridden completion, validate
reports a PrematureCompletion finding for the node against each blocking
dependency that is still not done. -/
theorem claim_canComplete_setStatus (d : Document) (id : RawId) (nid : NodeId)
    (hid : resolveRaw d id = some nid) :
    (canComplete nid d = true ↔
      ∀ r ∈ depsOf d nid, ∀ m, resolveRaw d r = some m →
        statusOf d m = some doneS) ∧
    (setStatus id doneS false d = .error .prematureCompletion ↔
      canComplete nid d = false) ∧
    (canComplete nid d = true →
      setStatus id doneS false d = .ok (setStatusDoc d nid doneS)) ∧
    setStatus id doneS true d = .ok (setStatusDoc d nid doneS) ∧
    (∀ st, st ≠ doneS → ∀ override : Bool,
      setStatus id st override d = .ok (setStatusDoc d nid st)) ∧
    (∀ e r m stm, lookupEntry d nid = some e → r ∈ e.deps →
      resolveRaw d r = some m → m ≠ nid → statusOf d m = some stm →
      stm ≠ doneS →
      Finding.premature nid m ∈ validate (setStatusDoc d nid doneS)) := by
  refine ⟨canComplete_iff, ?_, ?_, ?_, ?_, ?_⟩
  · rw [setStatus_some hid]
    cases hcan : canComplete nid d with
    | true =>
      rw [if_neg (by simp [hcan])]
      constructor
      · intro h
        simp at h
      · intro h
        cases h
    | false =>
      rw [if_pos (by simp [hcan])]
      exact ⟨fun _ => rfl, fun _ => rfl⟩
  · intro hcan
    rw [setStatus_some hid, if_neg (by simp [hcan])]
  · rw [setStatus_some hid, if_neg (by simp)]
  · intro st hst override
    rw [setStatus_some hid, if_neg (by simp [hst])]
  · intro e r m stm hl hr hres hmne hsts hstm
    have hl2 : lookupEntry (setStatusDoc d nid doneS) nid =
        some ⟨e.nid, e.deps, doneS⟩ := lookupEntry_setStatusDoc_self doneS hl
    apply premature_mem_validate hl2 rfl hr
    · rw [resolveRaw_setStatusDoc]
      exact hres
    · rw [statusOf_setStatusDoc_other doneS hmne]
      exact hsts
    · exact hstm

/-- C4 witness: the pending task 1 depends on the pending task 2; completing
1 is rejected, completing 2 then 1 succeeds, and an overridden completion of
1 is flagged by validate as premature against 2. -/
theorem claim_canComplete_setStatus_witness :
    canComplete (NodeId.task 1) docAB = false ∧
    setStatus (RawId.num 1) doneS false docAB = .error .prematureCompletion ∧
    setStatus (RawId.num 2) doneS false docAB =
      .ok (setStatusDoc docAB (NodeId.task 2) doneS) ∧
    setStatus (RawId.num 1) doneS false (setStatusDoc docAB (NodeId.task 2) doneS) =
      .ok (setStatusDoc (setStatusDoc docAB (NodeId.task 2) doneS) (NodeId.task 1) doneS) ∧
    setStatus (RawId.num 1) doneS true docAB =
      .ok (setStatusDoc docAB (NodeId.task 1) doneS) ∧
    Finding.premature (NodeId.task 1) (NodeId.task 2) ∈
      validate (setStatusDoc docAB (NodeId.task 1) doneS) := by
  have h1 := claim_canComplete_setStatus docAB (RawId.num 1) (NodeId.task 1) (by rfl)
  have h2 := claim_canComplete_setStatus docAB (RawId.num 2) (NodeId.task 2) (by rfl)
  have h3 := claim_canComplete_setStatus (setStatusDoc docAB (NodeId.task 2) doneS)
    (RawId.num 1) (NodeId.task 1) (by rfl)
  refine ⟨by rfl, h1.2.1.mpr (by rfl), h2.2.2.1 (by rfl), h3.2.2.1 (by rfl),
    h1.2.2.2.1, ?_⟩
  exact h1.2.2.2.2.2 ⟨NodeId.task 1, [RawId.num 2], pendingS⟩ (RawId.num 2)
    (NodeId.task 2) pendingS (by rfl) (by decide) (by rfl) (by decide) (by rfl)
    (by decide)

/-- C6: removeDependency fails with NodeNotFound exactly when the source
identifier does not resolve or the edge is absent (removing a nonexistent
edge is reported, never silently ignored); otherwise it removes exactly that
edge — the source node's list loses the matching identifiers and every other
node's list is untouched. -/
theorem claim_removeDependency (d : Document) (fromId toId : RawId) :
    (removeDependency fromId toId d = .error .nodeNotFound ↔
      ¬ ∃ f t, resolveRaw d fromId = some f ∧ parseRawId toId = some t ∧
        (depsOf d f).any (fun r => parseRawId r == some t) = true) ∧
    (∀ f t, resolveRaw d fromId = some f → parseRawId toId = some t →
      (depsOf d f).any (fun r => parseRawId r == some t) = true →
      removeDependency fromId toId d = .ok (mapDeps (fun nid l =>
        if nid = f then l.filter (fun r => !(parseRawId r == some t)) else l) d) ∧
      depsOf (mapDeps (fun nid l =>
          if nid = f then l.filter (fun r => !(parseRawId r == some t)) else l) d) f =
        (depsOf d f).filter (fun r => !(parseRawId r == some t)) ∧
      (∀ nid2, nid2 ≠ f →
        depsOf (mapDeps (fun nid l =>
          if nid = f then l.filter (fun r => !(parseRawId r == some t)) else l) d) nid2 =
        depsOf d nid2)) := by
  constructor
  · constructor
    · intro h hex
      obtain ⟨f, t, hf, ht, hany⟩ := hex
      rw [removeDependency_resolved hf ht, if_pos hany] at h
      cases h
    · intro hnex
      cases hf : resolveRaw d fromId with
      | none => exact removeDependency_unresolved (Or.inl hf)
      | some f =>
        cases ht : parseRawId toId with
        | none => exact removeDependency_unresolved (Or.inr ht)
        | some t =>
          rw [removeDependency_resolved hf ht]
          rw [if_neg]
          intro hany
          exact hnex ⟨f, t, hf, ht, hany⟩
  · intro f t hf ht hany
    refine ⟨by rw [removeDependency_resolved hf ht, if_pos hany], ?_, ?_⟩
    · have hlook : ∃ e, lookupEntry d f = some e := by
        have hres := resolveRaw_resolves hf
        rw [resolvesId] at hres
        cases hl : lookupEntry d f with
        | none => rw [hl] at hres; cases hres
        | some e => exact ⟨e, rfl⟩
      obtain ⟨e, hl⟩ := hlook
      rw [depsOf_mapDeps_of_lookup _ hl, if_pos rfl]
      rw [depsOf, hl]
      rfl
    · intro nid2 hne
      cases hl2 : lookupEntry d nid2 with
      | none =>
        rw [depsOf_mapDeps_of_none _ hl2, depsOf, hl2]
        rfl
      | some e2 =>
        rw [depsOf_mapDeps_of_lookup _ hl2, if_neg hne, depsOf, hl2]
        rfl

/-- C6 witness: removing the edge 5 to 6 succeeds and yields the document
without it; removing it again is reported as NodeNotFound. -/
theorem claim_removeDependency_witness :
    removeDependency (RawId.num 5) (RawId.num 6) doc56After = .ok doc56 ∧
    removeDependency (RawId.num 5) (RawId.num 6) doc56 =
      .error .nodeNotFound := by
  constructor
  · have h := (claim_removeDependency doc56After (RawId.num 5) (RawId.num 6)).2
      (NodeId.task 5) (NodeId.task 6) (by rfl) (by rfl) (by rfl)
    exact h.1
  · apply (claim_removeDependency doc56 (RawId.num 5) (RawId.num 6)).1.mpr
    rintro ⟨f, t, hf, ht, hany⟩
    rw [show resolveRaw doc56 (RawId.num 5) = some (NodeId.task 5) from rfl] at hf
    injection hf with hf1
    subst hf1
    rw [show depsOf doc56 (NodeId.task 5) = ([] : List RawId) from rfl] at hany
    simp at hany

/-- C7: the identifier resolver is total and pure — it returns a resolved
handle or not-found for every raw identifier and never throws; every
malformed string (a non-digit, non-dot character after trimming, or more
than one dot) parses and resolves to not-found, negative integers resolve to
not-found, and a malformed identifier used as a dependency is reported by
validate as a DanglingReference finding rather than raising. -/
theorem claim_resolver_malformed (s : String) (d : Document)
    (h : (∃ c ∈ trimChars s.data, isDigitC c = false ∧ c ≠ '.') ∨
      2 ≤ (trimChars s.data).count ('.' : Char)) :
    parseRawId (RawId.str s) = none ∧
    resolveRaw d (RawId.str s) = none ∧
    (∀ r : RawId, resolveRaw d r = none ∨
      ∃ nid, resolveRaw d r = some nid ∧ resolvesId d nid = true) ∧
    (∀ n : Int, n < 0 → parseRawId (RawId.num n) = none) ∧
    (∀ nid e, lookupEntry d nid = some e → RawId.str s ∈ e.deps →
      Finding.dangling nid (RawId.str s) ∈ validate d) := by
  have hp := parseRawId_str_none_of_bad s h
  refine ⟨hp, resolveRaw_none_of_parse hp, resolveRaw_total d,
    fun n hn => parseRawId_num_neg hn, ?_⟩
  intro nid e hl hr
  exact dangling_mem_validate hl hr (resolveRaw_none_of_parse hp)

/-- C7 witness: the malformed identifier string a.b resolves to not-found
and, used as a dependency of task 1, is reported as a dangling reference. -/
theorem claim_resolver_malformed_witness :
    parseRawId (RawId.str ("a.b")) = none ∧
    resolveRaw docMal (RawId.str ("a.b")) = none ∧
    Finding.dangling (NodeId.task 1) (RawId.str ("a.b")) ∈ validate docMal := by
  have h := claim_resolver_malformed ("a.b") docMal
    (Or.inl ⟨'a', by decide, by decide, by decide⟩)
  exact ⟨h.1, h.2.1,
    h.2.2.2.2 (NodeId.task 1) ⟨NodeId.task 1, [RawId.str ("a.b")], pendingS⟩
      (by rfl) (by decide)⟩

/-- C9: task-master-core.js exports exactly the six direct functions, its
directFunctions lookup map has exactly the six keys list, cacheStats,
parsePRD, update, updateTask and updateSubtask, and it exports neither
removeDependencyDirect nor fixDependenciesDirect — so the imports of those
names by the remove-dependency and fix-dependencies tool modules resolve to
no exported binding. -/
theorem claim_core_exports :
    directFunctionExports = ["listTasksDirect", "getCacheStatsDirect",
      "parsePRDDirect", "updateTasksDirect", "updateTaskByIdDirect",
      "updateSubtaskByIdDirect"] ∧
    directFunctionExports.length = 6 ∧
    directFunctions.map (fun kv => kv.1) =
      ["list", "cacheStats", "parsePRD", "update", "updateTask",
        "updateSubtask"] ∧
    directFunctions.length = 6 ∧
    ("removeDependencyDirect" : String) ∉ taskMasterCoreExports ∧
    ("fixDependenciesDirect" : String) ∉ taskMasterCoreExports ∧
    (∀ n ∈ removeDependencyToolImports, n ∉ taskMasterCoreExports) ∧
    (∀ n ∈ fixDependenciesToolImports, n ∉ taskMasterCoreExports) := by
  refine ⟨rfl, rfl, rfl, rfl, by decide, by decide, by decide, by decide⟩

/-- C10: the remove_dependency execute handler always returns a response
value (success or error) and never propagates an exception; when no project
root can be determined it returns an error response without calling
removeDependencyDirect; a throw from findTasksJsonPath is converted by the
inner catch, also before any direct call; and a throw from the direct call
is converted by the outer catch into createErrorResponse. -/
theorem claim_remove_dependency_execute (env : RdEnv) (args : RdArgs) :
    ((∃ msg, (rdExecute env args).1 = Response.error msg) ∨
      (∃ msg, (rdExecute env args).1 = Response.success msg)) ∧
    (rootOf env.sessionRoot args.projectRoot = none →
      rdExecute env args = (Response.error noRootMsg, [])) ∧
    (∀ rf m, rootOf env.sessionRoot args.projectRoot = some rf →
      env.findPath rf = .thrown m →
      rdExecute env args = (Response.error (failedFindMsg m), [])) ∧
    (∀ rf path m, rootOf env.sessionRoot args.projectRoot = some rf →
      env.findPath rf = .ok path → env.direct path = .thrown m →
      rdExecute env args = (Response.error m, [directCallName])) := by
  refine ⟨?_, ?_, ?_, ?_⟩
  · cases h : (rdExecute env args).1 with
    | success m => exact Or.inr ⟨m, rfl⟩
    | error m => exact Or.inl ⟨m, rfl⟩
  · intro h
    rw [rdExecute, rdExecuteBody, h]
    rfl
  · intro rf m h1 h2
    rw [rdExecute, rdExecuteBody, h1]
    dsimp only
    rw [h2]
    rfl
  · intro rf path m h1 h2 h3
    rw [rdExecute, rdExecuteBody, h1]
    dsimp only
    rw [h2]
    dsimp only
    rw [h3]
    rfl

/-- C10 witness: with no session root and no projectRoot argument, the
handler returns the error response and makes no direct call. -/
theorem claim_remove_dependency_execute_witness :
    rdExecute rdEnvNone rdArgsNone = (Response.error noRootMsg, []) :=
  (claim_remove_dependency_execute rdEnvNone rdArgsNone).2.1 (by rfl)

end TaskDeps

